import Mathlib

/-!
Verification of the semantic-text-splitter specification.

The repository ships the Python integration tests of the splitter; the core
engine itself is not part of the source tree.  Following the specification
(sections 3-6 of the spec), the engine is modelled here as a shallow
embedding: the input text is a list of Unicode scalar values (the Python
binding reports offsets in scalar-value units, as its multibyte tests show),
a sizer is a function from texts to natural numbers, and the recursive
semantic splitter is modelled with a two-level boundary ladder (line-break
level, then individual scalar values) together with the greedy packer, the
below-minimum growth step, overlap retreat and edge trimming described in
the spec.
-/

namespace TextSplitter

/-- Modelled from the spec: a Sizer maps a slice of the input to its
integer size (spec section 4.1). -/
abbrev Sizer := List Char → Nat

/-- Modelled from the spec: the character-count sizer, the number of
Unicode scalar values of the slice. -/
def charSizer : Sizer := List.length

/-- Modelled from the spec: the required sizer monotonicity property
(spec sections 4.5 and 8): extending a slice never decreases its size. -/
def Mono (sz : Sizer) : Prop := ∀ xs ys : List Char, sz xs ≤ sz (xs ++ ys)

/-- Modelled from the spec: the configuration record of a splitter
(capacity pair, overlap, trim flag; spec section 6). -/
structure Config where
  lo : Nat
  hi : Nat
  overlap : Nat
  trim : Bool
deriving DecidableEq, Repr

/-- Modelled from the spec: the line-break level of the plain-text boundary
ladder (spec section 4.3).  The input is tiled into sections; a new section
begins at every line-break character, so a line break starts the section
that follows it (as the integration tests of the range capacity show). -/
def lineSections (w : List Char) : List (List Char) :=
  w.foldr
    (fun c acc =>
      match acc with
      | [] => [[c]]
      | s :: rest => if s.headI = '\n' then [c] :: s :: rest else (c :: s) :: rest)
    []

/-- Modelled from the spec: the finest level of the ladder, individual
Unicode scalar values (spec section 4.3, level 5). -/
def charSections (w : List Char) : List (List Char) := w.map (fun c => [c])

/-- Modelled from the spec: the boundary ladder, coarsest level first
(spec section 4.3).  The sentence/word/grapheme levels of UAX 29 are not
reproduced; the ladder is restricted to the line-break level and the
scalar-value level, which the claims under verification do not depend on. -/
def splitLevel : Nat → List Char → List (List Char)
  | 0, w => lineSections w
  | _ + 1, w => charSections w

/-- Modelled from the spec: the greedy prefix count of the packer
(spec section 4.5, steps 2-3): the number of leading sections whose
cumulative size, measured on the concatenated slice, stays within `hi`. -/
def packCount (sz : Sizer) (hi : Nat) : List Char → List (List Char) → Nat
  | _, [] => 0
  | acc, s :: rest =>
      if sz (acc ++ s) ≤ hi then packCount sz hi (acc ++ s) rest + 1 else 0

/-- Modelled from the spec: the emission length at a level once at least one
section fits (spec section 4.5, steps 4-5).  If the greedy prefix reaches
`lo` it is emitted as is; otherwise, when a following section exists and a
finer level is available, the prefix is grown by greedily appending
finest-level sub-sections of that following section while still fitting
`hi`. -/
def packAt (sz : Sizer) (lo hi : Nat) (grow : Bool) (L : Nat) (w : List Char) : Nat :=
  let secs := splitLevel L w
  let k := packCount sz hi [] secs
  let base := (secs.take k).flatten
  if lo ≤ sz base then base.length
  else if k < secs.length ∧ grow = true then
    base.length + packCount sz hi base (splitLevel (L + 1) ((secs.drop k).headI))
  else base.length

/-- Modelled from the spec: the packer (spec section 4.5).  `down` counts the
ladder levels still available below the current level `L`.  When even the
first section of the current level exceeds `hi` the packer recurses into
that section at the next finer level; at the finest level the single leading
unit is emitted as an overflow chunk.  The result is the number of scalar
values of the next chunk together with the level at which it was emitted. -/
def packStepAux (sz : Sizer) (lo hi : Nat) : Nat → Nat → List Char → Nat × Nat
  | 0, L, w =>
      if packCount sz hi [] (splitLevel L w) = 0 then (1, L)
      else (packAt sz lo hi false L w, L)
  | down + 1, L, w =>
      if packCount sz hi [] (splitLevel L w) = 0 then
        packStepAux sz lo hi down (L + 1) ((splitLevel L w).headI)
      else (packAt sz lo hi true L w, L)

/-- Modelled from the spec: the packer entry point at the coarsest level of
the two-level ladder. -/
def packStep (sz : Sizer) (lo hi : Nat) (w : List Char) : Nat × Nat :=
  packStepAux sz lo hi 1 0 w

/-- Modelled from the spec: the candidate overlap lengths of a chunk that
are aligned to level-`L` boundaries (spec section 4.6): the lengths of the
suffixes of the chunk that start at a level-`L` boundary strictly inside the
chunk, i.e. at the start of the second or a later level-`L` section of the
chunk. -/
def alignedLens (L : Nat) (chunk : List Char) : List Nat :=
  (List.range (splitLevel L chunk).length).map
    (fun j => ((splitLevel L chunk).drop (j + 1)).flatten.length)

/-- Modelled from the spec: the boundary-aligned part of the overlap retreat
(spec section 4.6): the largest non-empty suffix of the chunk that starts at
a level-`L` boundary strictly inside the chunk and whose size fits the
overlap budget, or `0` when no such suffix exists. -/
def alignedRetreat (sz : Sizer) (ov : Nat) (L : Nat) (chunk : List Char) : Nat :=
  ((alignedLens L chunk).filter
    (fun r => decide (0 < r ∧ sz (chunk.drop (chunk.length - r)) ≤ ov))).foldr Nat.max 0

/-- Modelled from the spec: the overlap retreat (spec sections 4.6 and 9).
After a chunk emitted at level `L`, the next chunk's left edge is the offset
giving the largest remaining suffix of the chunk whose size still fits the
overlap budget, preferring level-`L` boundaries as the spec requires (the
edge "lies on a level-`L` boundary where possible", aligning the overlap to
the coarsest boundary within the budget): when some level-`L` boundary
strictly inside the chunk yields a non-empty suffix within budget, the
largest such suffix is kept; otherwise the finest boundaries (individual
scalar values) are used, again maximizing the suffix within budget.  The
retreat never reaches back to the chunk's own start (`r` stays at most the
chunk length minus one), so the cursor always advances.  With `overlap = 0`
the next chunk starts immediately after the previous one. -/
def retreat (sz : Sizer) (ov : Nat) (L : Nat) (chunk : List Char) : Nat :=
  if ov = 0 then 0
  else if alignedRetreat sz ov L chunk ≠ 0 then alignedRetreat sz ov L chunk
  else Nat.findGreatest (fun r => sz (chunk.drop (chunk.length - r)) ≤ ov) (chunk.length - 1)

/-- Modelled from the spec: the chunk engine (spec section 4.6).  It drives
the packer across the input, emitting `(start, length, level)` spans; after
a span the cursor retreats by the overlap amount.  Iteration stops when a
chunk reaches the end of the input.  `fuel` bounds the number of emitted
chunks; the engine is run with fuel equal to the input length, which the
coverage theorem shows is enough when the cursor cannot stall. -/
def engineSpans (sz : Sizer) (lo hi ov : Nat) : Nat → Nat → List Char → List (Nat × Nat × Nat)
  | 0, _, _ => []
  | fuel + 1, a, w =>
      if w.isEmpty then []
      else
        let p := packStep sz lo hi w
        if w.length ≤ p.1 then [(a, p.1, p.2)]
        else
          (a, p.1, p.2) ::
            engineSpans sz lo hi ov fuel (a + p.1 - retreat sz ov p.2 (w.take p.1))
              (w.drop (p.1 - retreat sz ov p.2 (w.take p.1)))

/-- The slice of `t` of length `n` starting at scalar-value offset `a`. -/
def sliceAt (t : List Char) (a n : Nat) : List Char := (t.drop a).take n

/-- Whitespace predicate used by trimming. -/
def isWs (c : Char) : Bool := c.isWhitespace

/-- Number of leading whitespace scalars of a slice. -/
def wsLead (s : List Char) : Nat := (s.takeWhile isWs).length

/-- Strip leading whitespace. -/
def stripL (s : List Char) : List Char := s.dropWhile isWs

/-- Strip trailing whitespace. -/
def stripR (s : List Char) : List Char := (s.reverse.dropWhile isWs).reverse

/-- Modelled from the spec: trimming a chunk strips whitespace from both
edges (spec section 4.6). -/
def stripB (s : List Char) : List Char := stripR (stripL s)

/-- Modelled from the spec: emission of one `(offset, text)` pair from a
span (spec section 4.6).  With trimming on, whitespace is stripped from both
edges, a chunk that becomes empty is skipped, and the reported offset moves
to the chunk's first non-whitespace scalar. -/
def emitIndex (t : List Char) (trim : Bool) (x : Nat × Nat × Nat) : Option (Nat × List Char) :=
  let s := sliceAt t x.1 x.2.1
  if trim then
    let s' := stripB s
    if s'.isEmpty then none else some (x.1 + wsLead s, s')
  else some (x.1, s)

/-- Modelled from the spec: emission of one chunk text from a span
(spec section 4.6), the `chunks` counterpart of `emitIndex`. -/
def emitChunk (t : List Char) (trim : Bool) (x : Nat × Nat × Nat) : Option (List Char) :=
  let s := sliceAt t x.1 x.2.1
  if trim then
    let s' := stripB s
    if s'.isEmpty then none else some s'
  else some s

/-- The spans of a whole splitting run. -/
def chunkSpans (sz : Sizer) (cfg : Config) (t : List Char) : List (Nat × Nat × Nat) :=
  engineSpans sz cfg.lo cfg.hi cfg.overlap t.length 0 t

/-- Modelled from the spec: the `chunk_indices` operation (spec section 6). -/
def chunkIndices (sz : Sizer) (cfg : Config) (t : List Char) : List (Nat × List Char) :=
  (chunkSpans sz cfg t).filterMap (emitIndex t cfg.trim)

/-- Modelled from the spec: the `chunks` operation (spec section 6). -/
def chunks (sz : Sizer) (cfg : Config) (t : List Char) : List (List Char) :=
  (chunkSpans sz cfg t).filterMap (emitChunk t cfg.trim)

/-- Modelled from the spec: the construction-time errors (spec section 6). -/
inductive SplitError where
  | invalidCapacity
  | invalidOverlap
  | unknownModel
deriving DecidableEq, Repr

/-- Modelled from the spec: the splitter flavors (spec section 6). -/
inductive Flavor where
  | text
  | markdown
  | code
deriving DecidableEq, Repr

/-- Modelled from the spec: splitter construction validates the capacity
pair and the overlap (spec sections 3, 4.6 and 6): it fails with
`invalidCapacity` when `lo > hi` and with `invalidOverlap` when
`overlap ≥ lo` (the spec requires `overlap < lo` at construction). -/
def mkSplitter (lo hi ov : Nat) (trim : Bool) : Except SplitError Config :=
  if hi < lo then .error .invalidCapacity
  else if lo ≤ ov then .error .invalidOverlap
  else .ok ⟨lo, hi, ov, trim⟩

/-- Modelled from the spec: construction through a model-named tokenizer
(spec sections 4.1 and 6).  The tokenizer registry is external to the
repository, so it is abstracted as the list of known model names; an
unknown model name fails with `unknownModel` and produces no splitter. -/
def fromTiktokenModel (flavor : Flavor) (known : List String) (model : String)
    (lo hi ov : Nat) (trim : Bool) : Except SplitError (Flavor × Config) :=
  if model ∈ known then (mkSplitter lo hi ov trim).map (fun c => (flavor, c))
  else .error .unknownModel

/-- UTF-8 encoding of one Unicode scalar value, as a list of byte values. -/
def utf8Bytes (c : Char) : List Nat :=
  let n := c.toNat
  if n < 128 then [n]
  else if n < 2048 then [192 + n / 64, 128 + n % 64]
  else if n < 65536 then [224 + n / 4096, 128 + n / 64 % 64, 128 + n % 64]
  else [240 + n / 262144, 128 + n / 4096 % 64, 128 + n / 64 % 64, 128 + n % 64]

/-- UTF-8 encoding of a text. -/
def utf8Encode (s : List Char) : List Nat := (s.map utf8Bytes).flatten

/-! ### Structure of the line-break sections -/

theorem lineSections_nil : lineSections ([] : List Char) = [] := rfl

theorem lineSections_cons (c : Char) (w : List Char) :
    lineSections (c :: w) =
      match lineSections w with
      | [] => [[c]]
      | s :: rest => if s.headI = '\n' then [c] :: s :: rest else (c :: s) :: rest := rfl

theorem headI_append_of_ne_nil {u : List Char} (v : List Char) (h : u ≠ []) :
    (u ++ v).headI = u.headI := by
  cases u with
  | nil => exact absurd rfl h
  | cons a u => rfl

theorem flatten_lineSections (w : List Char) : (lineSections w).flatten = w := by
  induction w with
  | nil => rfl
  | cons c w ih =>
      rw [lineSections_cons]
      cases h : lineSections w with
      | nil =>
          rw [h] at ih
          simp at ih
          simp [← ih]
      | cons s rest =>
          rw [h] at ih
          by_cases hs : s.headI = '\n' <;> simp [hs, List.flatten_cons, ← ih]

theorem ne_nil_of_mem_lineSections {w s : List Char} (h : s ∈ lineSections w) : s ≠ [] := by
  induction w generalizing s with
  | nil => simp [lineSections_nil] at h
  | cons c w ih =>
      rw [lineSections_cons] at h
      cases hw : lineSections w with
      | nil =>
          rw [hw] at h
          simp at h
          simp [h]
      | cons s0 rest =>
          rw [hw] at h
          by_cases hs : s0.headI = '\n'
          · simp [hs] at h
            rcases h with h | h | h
            · simp [h]
            · exact ih (by rw [hw, h]; exact List.mem_cons_self _ _)
            · exact ih (by rw [hw]; exact List.mem_cons_of_mem _ h)
          · simp [hs] at h
            rcases h with h | h
            · simp [h]
            · exact ih (by rw [hw]; exact List.mem_cons_of_mem _ h)

theorem lineSections_ne_nil {w : List Char} (h : w ≠ []) : lineSections w ≠ [] := by
  cases w with
  | nil => exact absurd rfl h
  | cons c w =>
      rw [lineSections_cons]
      cases lineSections w with
      | nil => simp
      | cons s rest => by_cases hs : s.headI = '\n' <;> simp [hs]

theorem headI_headI_lineSections {w : List Char} (h : w ≠ []) :
    (lineSections w).headI.headI = w.headI := by
  cases w with
  | nil => exact absurd rfl h
  | cons c w =>
      rw [lineSections_cons]
      cases lineSections w with
      | nil => rfl
      | cons s rest => by_cases hs : s.headI = '\n' <;> simp [hs]

theorem exists_cons_lineSections (c : Char) (w : List Char) :
    ∃ τ rest, lineSections (c :: w) = (c :: τ) :: rest := by
  rw [lineSections_cons]
  cases lineSections w with
  | nil => exact ⟨[], [], rfl⟩
  | cons s r =>
      by_cases hs : s.headI = '\n'
      · exact ⟨[], s :: r, by simp [hs]⟩
      · exact ⟨s, r, by simp [hs]⟩

theorem headI_mem_tail_lineSections {w s : List Char}
    (h : s ∈ (lineSections w).tail) : s.headI = '\n' := by
  induction w generalizing s with
  | nil => simp [lineSections_nil] at h
  | cons c w ih =>
      rw [lineSections_cons] at h
      cases hw : lineSections w with
      | nil =>
          rw [hw] at h
          simp at h
      | cons s0 rest =>
          rw [hw] at h
          by_cases hs : s0.headI = '\n'
          · simp [hs] at h
            rcases h with h | h
            · rw [h]; exact hs
            · exact ih (by rw [hw]; exact h)
          · simp [hs] at h
            exact ih (by rw [hw]; exact h)

theorem tail_clean_of_mem_lineSections {w s : List Char} (h : s ∈ lineSections w) :
    ∀ c ∈ s.tail, c ≠ '\n' := by
  induction w generalizing s with
  | nil => simp [lineSections_nil] at h
  | cons a w ih =>
      rw [lineSections_cons] at h
      cases hw : lineSections w with
      | nil =>
          rw [hw] at h
          simp at h
          subst h
          simp
      | cons s0 rest =>
          rw [hw] at h
          by_cases hs : s0.headI = '\n'
          · simp [hs] at h
            rcases h with h | h | h
            · subst h; simp
            · subst h
              exact ih (by rw [hw]; exact List.mem_cons_self _ _)
            · exact ih (by rw [hw]; exact List.mem_cons_of_mem _ h)
          · simp [hs] at h
            rcases h with h | h
            · subst h
              intro c hc
              have hs0 : s0 ∈ lineSections w := by rw [hw]; exact List.mem_cons_self _ _
              have hne := ne_nil_of_mem_lineSections hs0
              cases s0 with
              | nil => exact absurd rfl hne
              | cons b bs =>
                  simp at hc
                  rcases hc with rfl | hc
                  · simpa using hs
                  · exact ih hs0 c hc
            · exact ih (by rw [hw]; exact List.mem_cons_of_mem _ h)

theorem lineSections_single {a : Char} {v : List Char}
    (h : ∀ c ∈ v, c ≠ '\n') : lineSections (a :: v) = [a :: v] := by
  induction v generalizing a with
  | nil => rfl
  | cons b v ih =>
      have hb : b ≠ '\n' := h b (List.mem_cons_self _ _)
      have ih' := ih (fun c hc => h c (List.mem_cons_of_mem _ hc)) (a := b)
      rw [lineSections_cons, ih']
      simp [hb]

theorem lineSections_append {u v : List Char} (hv : v ≠ []) (hnl : v.headI = '\n') :
    lineSections (u ++ v) = lineSections u ++ lineSections v := by
  induction u with
  | nil => simp [lineSections_nil]
  | cons c u ih =>
      rw [List.cons_append, lineSections_cons, ih, lineSections_cons]
      cases hu : lineSections u with
      | nil =>
          cases hv' : lineSections v with
          | nil => exact absurd hv' (lineSections_ne_nil hv)
          | cons s rest =>
              have hsv : s.headI = '\n' := by
                have h2 := headI_headI_lineSections hv
                rw [hv'] at h2
                simp at h2
                rw [h2]; exact hnl
              simp [hsv]
      | cons s0 rest => by_cases hs : s0.headI = '\n' <;> simp [hs]

theorem lineSections_flatten_sections {S : List (List Char)}
    (hne : ∀ s ∈ S, s ≠ []) (hnl : ∀ s ∈ S, s.headI = '\n')
    (hcl : ∀ s ∈ S, ∀ c ∈ s.tail, c ≠ '\n') :
    lineSections S.flatten = S := by
  induction S with
  | nil => rfl
  | cons s S ih =>
      rw [List.flatten_cons]
      have hsne : s ≠ [] := hne s (List.mem_cons_self _ _)
      have hone : lineSections s = [s] := by
        cases s with
        | nil => exact absurd rfl hsne
        | cons a v => exact lineSections_single (hcl _ (List.mem_cons_self _ _))
      cases hS : S with
      | nil => subst hS; simpa using hone
      | cons s1 S1 =>
          have hs1 : s1 ≠ [] := hne s1 (by rw [hS]; exact List.mem_cons_of_mem _ (List.mem_cons_self _ _))
          have hfne : S.flatten ≠ [] := by
            rw [hS, List.flatten_cons]
            cases s1 with
            | nil => exact absurd rfl hs1
            | cons b bs => simp
          have hfnl : S.flatten.headI = '\n' := by
            rw [hS, List.flatten_cons, headI_append_of_ne_nil _ hs1]
            exact hnl s1 (by rw [hS]; exact List.mem_cons_of_mem _ (List.mem_cons_self _ _))
          rw [← hS, lineSections_append hfne hfnl, hone,
            ih (fun x hx => hne x (List.mem_cons_of_mem _ hx))
              (fun x hx => hnl x (List.mem_cons_of_mem _ hx))
              (fun x hx => hcl x (List.mem_cons_of_mem _ hx))]
          rfl

theorem lineSections_drop_flatten (w : List Char) (k : Nat) :
    lineSections (((lineSections w).drop k).flatten) = (lineSections w).drop k := by
  cases k with
  | zero => simp [flatten_lineSections]
  | succ k =>
      apply lineSections_flatten_sections
      · intro s hs
        exact ne_nil_of_mem_lineSections (List.mem_of_mem_drop hs)
      · intro s hs
        apply headI_mem_tail_lineSections (w := w)
        rw [← List.drop_one]
        apply List.mem_of_mem_drop (n := k)
        rw [List.drop_drop, Nat.add_comm]
        exact hs
      · intro s hs
        exact tail_clean_of_mem_lineSections (List.mem_of_mem_drop hs)

/-! ### Structure of the scalar-value sections and the ladder -/

theorem charSections_flatten (w : List Char) : (charSections w).flatten = w := by
  induction w with
  | nil => rfl
  | cons c w ih => simp [charSections] at ih ⊢; exact ih

theorem charSections_length (w : List Char) : (charSections w).length = w.length := by
  simp [charSections]

theorem mem_charSections_ne_nil {w s : List Char} (h : s ∈ charSections w) : s ≠ [] := by
  simp [charSections] at h
  obtain ⟨c, _, rfl⟩ := h
  simp

theorem charSections_ne_nil {w : List Char} (h : w ≠ []) : charSections w ≠ [] := by
  cases w with
  | nil => exact absurd rfl h
  | cons c w => simp [charSections]

theorem charSections_drop (w : List Char) (k : Nat) :
    charSections (w.drop k) = (charSections w).drop k := by
  simp [charSections, List.map_drop]

theorem charSections_take (w : List Char) (k : Nat) :
    charSections (w.take k) = (charSections w).take k := by
  simp [charSections, List.map_take]

theorem charSections_flatten_take (w : List Char) (k : Nat) :
    ((charSections w).take k).flatten = w.take k := by
  rw [← charSections_take, charSections_flatten]

theorem charSections_drop_flatten (w : List Char) (k : Nat) :
    charSections (((charSections w).drop k).flatten) = (charSections w).drop k := by
  rw [← charSections_drop, charSections_flatten, charSections_drop]

theorem splitLevel_flatten (L : Nat) (w : List Char) : (splitLevel L w).flatten = w := by
  cases L with
  | zero => exact flatten_lineSections w
  | succ L => exact charSections_flatten w

theorem mem_splitLevel_ne_nil {L : Nat} {w s : List Char} (h : s ∈ splitLevel L w) :
    s ≠ [] := by
  cases L with
  | zero => exact ne_nil_of_mem_lineSections h
  | succ L => exact mem_charSections_ne_nil h

theorem splitLevel_ne_nil (L : Nat) {w : List Char} (h : w ≠ []) : splitLevel L w ≠ [] := by
  cases L with
  | zero => exact lineSections_ne_nil h
  | succ L => exact charSections_ne_nil h

theorem splitLevel_drop_flatten (L : Nat) (w : List Char) (k : Nat) :
    splitLevel L (((splitLevel L w).drop k).flatten) = (splitLevel L w).drop k := by
  cases L with
  | zero => exact lineSections_drop_flatten w k
  | succ L => exact charSections_drop_flatten w k

theorem flatten_take_append_drop (S : List (List Char)) (k : Nat) :
    (S.take k).flatten ++ (S.drop k).flatten = S.flatten := by
  rw [← List.flatten_append, List.take_append_drop]

theorem charSections_headI {w : List Char} (h : w ≠ []) :
    (charSections w).headI = [w.headI] := by
  cases w with
  | nil => exact absurd rfl h
  | cons c w => rfl

theorem length_mem_charSections {w s : List Char} (h : s ∈ charSections w) : s.length = 1 := by
  simp [charSections] at h
  obtain ⟨c, _, rfl⟩ := h
  rfl

theorem take_one_eq_headI {w : List Char} (h : w ≠ []) : w.take 1 = [w.headI] := by
  cases w with
  | nil => exact absurd rfl h
  | cons c w => rfl

theorem headI_drop {α : Type} [Inhabited α] {l : List α} {j : Nat} (h : j < l.length) :
    (l.drop j).headI = l[j] := by
  rw [List.drop_eq_getElem_cons h]
  rfl

theorem drop_eq_headI_cons {α : Type} [Inhabited α] {l : List α} {k : Nat} (h : k < l.length) :
    l.drop k = (l.drop k).headI :: l.drop (k + 1) := by
  rw [headI_drop h]
  exact List.drop_eq_getElem_cons h

theorem take_succ_of_lt {α : Type} {l : List α} {j : Nat} (h : j < l.length) :
    l.take (j + 1) = l.take j ++ [l[j]] := by
  rw [List.take_succ]
  congr 1
  simp [List.getElem?_eq_getElem h]

theorem take_len_flatten (S : List (List Char)) (k : Nat) :
    S.flatten.take ((S.take k).flatten).length = (S.take k).flatten := by
  conv_lhs => rw [← flatten_take_append_drop S k]
  exact List.take_left _ _

theorem drop_len_flatten (S : List (List Char)) (k : Nat) :
    S.flatten.drop ((S.take k).flatten).length = (S.drop k).flatten := by
  conv_lhs => rw [← flatten_take_append_drop S k]
  exact List.drop_left _ _

theorem flatten_take_succ {S : List (List Char)} {k : Nat} (h : k < S.length) :
    (S.take (k + 1)).flatten = (S.take k).flatten ++ (S.drop k).headI := by
  rw [take_succ_of_lt h, List.flatten_append, headI_drop h]
  simp

theorem flatten_eq_take_headI_drop {S : List (List Char)} {k : Nat} (h : k < S.length) :
    S.flatten = (S.take k).flatten ++ ((S.drop k).headI ++ (S.drop (k + 1)).flatten) := by
  conv_lhs => rw [← flatten_take_append_drop S k]
  congr 1
  conv_lhs => rw [drop_eq_headI_cons h]
  rw [List.flatten_cons]

theorem flatten_take_pos {S : List (List Char)} (hS : ∀ s ∈ S, s ≠ []) (hSne : S ≠ [])
    {k : Nat} (hk : 0 < k) : 0 < (S.take k).flatten.length := by
  cases S with
  | nil => exact absurd rfl hSne
  | cons s S =>
      cases k with
      | zero => exact absurd hk (by simp)
      | succ k =>
          rw [List.take_succ_cons, List.flatten_cons, List.length_append]
          have : s ≠ [] := hS s (List.mem_cons_self _ _)
          have : 0 < s.length := List.length_pos.mpr this
          omega

theorem length_flatten_take_le (S : List (List Char)) (k : Nat) :
    (S.take k).flatten.length ≤ S.flatten.length := by
  conv_rhs => rw [← flatten_take_append_drop S k]
  rw [List.length_append]
  omega

/-! ### The greedy prefix count -/

theorem packCount_le (sz : Sizer) (hi : Nat) :
    ∀ (secs : List (List Char)) (acc : List Char), packCount sz hi acc secs ≤ secs.length := by
  intro secs
  induction secs with
  | nil => intro acc; simp [packCount]
  | cons s rest ih =>
      intro acc
      simp only [packCount, List.length_cons]
      by_cases h : sz (acc ++ s) ≤ hi
      · rw [if_pos h]
        have := ih (acc ++ s)
        omega
      · rw [if_neg h]
        omega

theorem packCount_fits (sz : Sizer) (hi : Nat) :
    ∀ (secs : List (List Char)) (acc : List Char), 0 < packCount sz hi acc secs →
      sz (acc ++ (secs.take (packCount sz hi acc secs)).flatten) ≤ hi := by
  intro secs
  induction secs with
  | nil => intro acc h; simp [packCount] at h
  | cons s rest ih =>
      intro acc h
      by_cases hfit : sz (acc ++ s) ≤ hi
      · simp only [packCount, if_pos hfit] at h ⊢
        rw [List.take_succ_cons, List.flatten_cons, ← List.append_assoc]
        cases hK : packCount sz hi (acc ++ s) rest with
        | zero => simpa using hfit
        | succ K =>
            have hpos : 0 < packCount sz hi (acc ++ s) rest := by omega
            have := ih (acc ++ s) hpos
            rw [hK] at this
            exact this
      · simp only [packCount, if_neg hfit] at h
        exact absurd h (by omega)

theorem packCount_stop (sz : Sizer) (hi : Nat) :
    ∀ (secs : List (List Char)) (acc : List Char),
      packCount sz hi acc secs < secs.length →
      hi < sz (acc ++ (secs.take (packCount sz hi acc secs + 1)).flatten) := by
  intro secs
  induction secs with
  | nil => intro acc h; simp at h
  | cons s rest ih =>
      intro acc h
      by_cases hfit : sz (acc ++ s) ≤ hi
      · simp only [packCount, if_pos hfit] at h ⊢
        rw [List.take_succ_cons, List.flatten_cons, ← List.append_assoc]
        exact ih (acc ++ s) (by simp at h; omega)
      · simp only [packCount, if_neg hfit] at h ⊢
        simpa using Nat.lt_of_not_le hfit

/-! ### Packer lemmas -/

theorem splitLevel_succ_eq (L : Nat) (v : List Char) : splitLevel (L + 1) v = charSections v := rfl

theorem splitLevel_succ_length (L : Nat) (v : List Char) :
    (splitLevel (L + 1) v).length = v.length := by
  rw [splitLevel_succ_eq, charSections_length]

theorem splitLevel_succ_flatten_take (L : Nat) (v : List Char) (j : Nat) :
    ((splitLevel (L + 1) v).take j).flatten = v.take j := by
  rw [splitLevel_succ_eq, charSections_flatten_take]

theorem headI_mem_of_ne_nil {α : Type} [Inhabited α] {l : List α} (h : l ≠ []) :
    l.headI ∈ l := by
  cases l with
  | nil => exact absurd rfl h
  | cons a t => exact List.mem_cons_self _ _

theorem splitLevel_headI_cons (L : Nat) {v : List Char} (h : v ≠ []) :
    ∃ τ, (splitLevel L v).headI = v.headI :: τ := by
  cases v with
  | nil => exact absurd rfl h
  | cons c v =>
      cases L with
      | zero =>
          obtain ⟨τ, rest, hτ⟩ := exists_cons_lineSections c v
          refine ⟨τ, ?_⟩
          show (lineSections (c :: v)).headI = _
          rw [hτ]
          rfl
      | succ L => exact ⟨[], rfl⟩

theorem take_mid {A B C w : List Char} (hw : w = A ++ (B ++ C)) {j : Nat}
    (hj : j ≤ B.length) : w.take (A.length + j) = A ++ B.take j := by
  subst hw
  rw [List.take_append_eq_append_take, List.take_of_length_le (by omega)]
  congr 1
  rw [show A.length + j - A.length = j from by omega, List.take_append_eq_append_take,
    Nat.sub_eq_zero_of_le hj, List.take_zero, List.append_nil]

theorem drop_mid {A B C w : List Char} (hw : w = A ++ (B ++ C)) {j : Nat}
    (hj : j ≤ B.length) : w.drop (A.length + j) = B.drop j ++ C := by
  subst hw
  rw [List.drop_append_eq_append_drop, List.drop_eq_nil_of_le (by omega), List.nil_append,
    show A.length + j - A.length = j from by omega, List.drop_append_eq_append_drop,
    Nat.sub_eq_zero_of_le hj, List.drop_zero]

theorem pack_stop_at_base (sz : Sizer) (hi : Nat) (L : Nat) (w : List Char)
    (hklen : packCount sz hi [] (splitLevel L w) < (splitLevel L w).length) :
    hi < sz (w.take (((splitLevel L w).take
        (packCount sz hi [] (splitLevel L w))).flatten.length) ++
      (splitLevel L (w.drop (((splitLevel L w).take
        (packCount sz hi [] (splitLevel L w))).flatten.length))).headI) := by
  set secs := splitLevel L w with hsecs
  set k := packCount sz hi [] secs with hkdef
  have hflat : secs.flatten = w := splitLevel_flatten L w
  have h1 : w.take ((secs.take k).flatten).length = (secs.take k).flatten := by
    rw [← hflat]; exact take_len_flatten secs k
  have h2 : w.drop ((secs.take k).flatten).length = (secs.drop k).flatten := by
    rw [← hflat]; exact drop_len_flatten secs k
  have h3 : splitLevel L ((secs.drop k).flatten) = secs.drop k := by
    rw [hsecs]; exact splitLevel_drop_flatten L w k
  have hstop := packCount_stop sz hi secs [] hklen
  rw [flatten_take_succ hklen, List.nil_append] at hstop
  rw [h1, h2, h3]
  exact hstop

theorem packAt_le (sz : Sizer) (lo hi : Nat) (grow : Bool) (L : Nat) (w : List Char) :
    packAt sz lo hi grow L w ≤ w.length := by
  simp only [packAt]
  set secs := splitLevel L w with hsecs
  set k := packCount sz hi [] secs with hkdef
  have hflat : secs.flatten = w := splitLevel_flatten L w
  have h1 : ((secs.take k).flatten).length ≤ w.length := by
    rw [← hflat]; exact length_flatten_take_le secs k
  split
  · exact h1
  · split
    · next hcond =>
        have hklen : k < secs.length := hcond.1
        have hjle : packCount sz hi ((secs.take k).flatten)
            (splitLevel (L + 1) ((secs.drop k).headI)) ≤ ((secs.drop k).headI).length := by
          have h := packCount_le sz hi (splitLevel (L + 1) ((secs.drop k).headI))
            ((secs.take k).flatten)
          rwa [splitLevel_succ_eq, charSections_length] at h
        have h2 : ((secs.take (k + 1)).flatten).length ≤ w.length := by
          rw [← hflat]; exact length_flatten_take_le secs (k + 1)
        rw [flatten_take_succ hklen, List.length_append] at h2
        omega
    · exact h1

theorem packAt_pos (sz : Sizer) (lo hi : Nat) (grow : Bool) (L : Nat) {w : List Char}
    (hw : w ≠ []) (hk : 0 < packCount sz hi [] (splitLevel L w)) :
    0 < packAt sz lo hi grow L w := by
  simp only [packAt]
  have hbase : 0 < ((splitLevel L w).take
      (packCount sz hi [] (splitLevel L w))).flatten.length :=
    flatten_take_pos (fun s hs => mem_splitLevel_ne_nil hs) (splitLevel_ne_nil L hw) hk
  split
  · exact hbase
  · split
    · omega
    · exact hbase

theorem packAt_fits (sz : Sizer) (lo hi : Nat) (grow : Bool) (L : Nat) (w : List Char)
    (hk : 0 < packCount sz hi [] (splitLevel L w)) :
    sz (w.take (packAt sz lo hi grow L w)) ≤ hi := by
  simp only [packAt]
  set secs := splitLevel L w with hsecs
  set k := packCount sz hi [] secs with hkdef
  have hflat : secs.flatten = w := splitLevel_flatten L w
  have hbase_take : w.take ((secs.take k).flatten).length = (secs.take k).flatten := by
    rw [← hflat]; exact take_len_flatten secs k
  have hbase_fits : sz ((secs.take k).flatten) ≤ hi := by
    have h := packCount_fits sz hi secs [] hk
    simpa using h
  split
  · rw [hbase_take]; exact hbase_fits
  · split
    · next hcond =>
        have hklen : k < secs.length := hcond.1
        generalize hs' : (secs.drop k).headI = s'
        generalize hj : packCount sz hi ((secs.take k).flatten) (splitLevel (L + 1) s') = j
        have hjle : j ≤ s'.length := by
          rw [← hj]
          have h := packCount_le sz hi (splitLevel (L + 1) s') ((secs.take k).flatten)
          rwa [splitLevel_succ_length] at h
        have hdecomp : w = (secs.take k).flatten ++ (s' ++ (secs.drop (k + 1)).flatten) := by
          rw [← hflat, ← hs']
          exact flatten_eq_take_headI_drop hklen
        rw [take_mid hdecomp hjle]
        rcases Nat.eq_zero_or_pos j with h0 | hpos
        · rw [h0]
          simpa using hbase_fits
        · have h := packCount_fits sz hi (splitLevel (L + 1) s') ((secs.take k).flatten)
            (by omega)
          rw [hj, splitLevel_succ_flatten_take] at h
          exact h
    · rw [hbase_take]; exact hbase_fits

theorem packAt_max (sz : Sizer) (lo hi : Nat) (grow : Bool) (L : Nat) {w : List Char}
    (hmono : Mono sz) (hk : 0 < packCount sz hi [] (splitLevel L w))
    (hlt : packAt sz lo hi grow L w < w.length) :
    hi < sz (w.take (packAt sz lo hi grow L w) ++
      (splitLevel L (w.drop (packAt sz lo hi grow L w))).headI) := by
  simp only [packAt] at hlt ⊢
  set secs := splitLevel L w with hsecs
  set k := packCount sz hi [] secs with hkdef
  have hflat : secs.flatten = w := splitLevel_flatten L w
  split_ifs at hlt ⊢ with h1 h2
  · -- minimum reached: the chunk is the greedy prefix
    have hklen : k < secs.length := by
      by_contra hge
      push_neg at hge
      rw [List.take_of_length_le hge, hflat] at hlt
      omega
    exact pack_stop_at_base sz hi L w hklen
  · -- growth into the next section
    have hklen : k < secs.length := h2.1
    generalize hs' : (secs.drop k).headI = s' at hlt ⊢
    generalize hj : packCount sz hi ((secs.take k).flatten) (splitLevel (L + 1) s') = j at hlt ⊢
    have hs'mem : s' ∈ secs := by
      rw [← hs']
      refine List.mem_of_mem_drop (headI_mem_of_ne_nil ?_)
      apply List.ne_nil_of_length_pos
      rw [List.length_drop]
      omega
    have hs'ne : s' ≠ [] := mem_splitLevel_ne_nil hs'mem
    have hjle : j ≤ s'.length := by
      rw [← hj]
      have h := packCount_le sz hi (splitLevel (L + 1) s') ((secs.take k).flatten)
      rwa [splitLevel_succ_length] at h
    have hdecomp : w = (secs.take k).flatten ++ (s' ++ (secs.drop (k + 1)).flatten) := by
      rw [← hflat, ← hs']
      exact flatten_eq_take_headI_drop hklen
    have hstop0 := packCount_stop sz hi secs [] hklen
    rw [flatten_take_succ hklen, List.nil_append, hs'] at hstop0
    have hjlt : j < s'.length := by
      rcases Nat.lt_or_ge j s'.length with h | h
      · exact h
      · exfalso
        have hj_eq : j = s'.length := le_antisymm hjle h
        have hjpos : 0 < j := by
          rw [hj_eq]
          exact List.length_pos.mpr hs'ne
        have hfits := packCount_fits sz hi (splitLevel (L + 1) s') ((secs.take k).flatten)
          (by omega)
        rw [hj, splitLevel_succ_flatten_take, hj_eq, List.take_of_length_le le_rfl] at hfits
        omega
    rw [take_mid hdecomp hjle]
    have hwdne : w.drop ((secs.take k).flatten.length + j) ≠ [] := by
      apply List.ne_nil_of_length_pos
      rw [List.length_drop]
      omega
    obtain ⟨τ, hτ⟩ := splitLevel_headI_cons L hwdne
    rw [hτ]
    have hdropne : s'.drop j ≠ [] := by
      apply List.ne_nil_of_length_pos
      rw [List.length_drop]
      omega
    have hhead : (w.drop ((secs.take k).flatten.length + j)).headI = s'[j] := by
      rw [drop_mid hdecomp hjle, headI_append_of_ne_nil _ hdropne, headI_drop hjlt]
    rw [hhead]
    have hstop := packCount_stop sz hi (splitLevel (L + 1) s') ((secs.take k).flatten)
      (by rw [splitLevel_succ_length]; omega)
    rw [hj, splitLevel_succ_flatten_take, take_succ_of_lt hjlt] at hstop
    calc hi < sz ((secs.take k).flatten ++ (s'.take j ++ [s'[j]])) := hstop
      _ = sz (((secs.take k).flatten ++ s'.take j) ++ [s'[j]]) := by
          rw [List.append_assoc]
      _ ≤ sz ((((secs.take k).flatten ++ s'.take j) ++ [s'[j]]) ++ τ) := hmono _ _
      _ = sz (((secs.take k).flatten ++ s'.take j) ++ (s'[j] :: τ)) := by
          rw [List.append_assoc, List.singleton_append]
  · -- no growth available: the chunk is the greedy prefix
    have hklen : k < secs.length := by
      by_contra hge
      push_neg at hge
      rw [List.take_of_length_le hge, hflat] at hlt
      omega
    exact pack_stop_at_base sz hi L w hklen

/-! ### Lemmas about the packer entry point -/

theorem take_append_of_le {u v : List Char} {n : Nat} (h : n ≤ u.length) :
    (u ++ v).take n = u.take n := by
  rw [List.take_append_eq_append_take, Nat.sub_eq_zero_of_le h, List.take_zero, List.append_nil]

theorem drop_append_of_le {u v : List Char} {n : Nat} (h : n ≤ u.length) :
    (u ++ v).drop n = u.drop n ++ v := by
  rw [List.drop_append_eq_append_drop, Nat.sub_eq_zero_of_le h, List.drop_zero]

theorem packStepAux_zero_eq (sz : Sizer) (lo hi L : Nat) (w : List Char) :
    packStepAux sz lo hi 0 L w =
      if packCount sz hi [] (splitLevel L w) = 0 then (1, L)
      else (packAt sz lo hi false L w, L) := rfl

theorem packStepAux_zero_snd (sz : Sizer) (lo hi L : Nat) (w : List Char) :
    (packStepAux sz lo hi 0 L w).2 = L := by
  rw [packStepAux_zero_eq]
  split <;> rfl

theorem packStepAux_zero_pos (sz : Sizer) (lo hi L : Nat) {w : List Char} (hw : w ≠ []) :
    0 < (packStepAux sz lo hi 0 L w).1 := by
  rw [packStepAux_zero_eq]
  split
  · exact Nat.one_pos
  · next hk0 => exact packAt_pos sz lo hi false L hw (Nat.pos_of_ne_zero hk0)

theorem packStepAux_zero_le (sz : Sizer) (lo hi L : Nat) {w : List Char} (hw : w ≠ []) :
    (packStepAux sz lo hi 0 L w).1 ≤ w.length := by
  rw [packStepAux_zero_eq]
  split
  · exact List.length_pos.mpr hw
  · exact packAt_le sz lo hi false L w

theorem packStepAux_zero_overflow (sz : Sizer) (lo hi L : Nat) {w : List Char} (hw : w ≠ [])
    (hk0 : packCount sz hi [] (splitLevel (L + 1) w) = 0) : hi < sz (w.take 1) := by
  have hlen : 0 < (splitLevel (L + 1) w).length := by
    rw [splitLevel_succ_length]
    exact List.length_pos.mpr hw
  have hstop := packCount_stop sz hi (splitLevel (L + 1) w) [] (by omega)
  rw [hk0, List.nil_append, splitLevel_succ_flatten_take] at hstop
  simpa using hstop

theorem packStepAux_zero_size (sz : Sizer) (lo hi L : Nat) {w : List Char} (hw : w ≠ []) :
    sz (w.take (packStepAux sz lo hi 0 (L + 1) w).1) ≤ hi ∨
      ((packStepAux sz lo hi 0 (L + 1) w).1 = 1 ∧
        hi < sz (w.take (packStepAux sz lo hi 0 (L + 1) w).1)) := by
  rw [packStepAux_zero_eq]
  split_ifs with hk0
  · right
    exact ⟨rfl, packStepAux_zero_overflow sz lo hi L hw hk0⟩
  · left
    exact packAt_fits sz lo hi false (L + 1) w (Nat.pos_of_ne_zero hk0)

theorem packStepAux_zero_max (sz : Sizer) (lo hi L : Nat) {w : List Char}
    (hmono : Mono sz) (hw : w ≠ [])
    (hlt : (packStepAux sz lo hi 0 (L + 1) w).1 < w.length) :
    hi < sz (w.take (packStepAux sz lo hi 0 (L + 1) w).1 ++
      (splitLevel (L + 1) (w.drop (packStepAux sz lo hi 0 (L + 1) w).1)).headI) := by
  rw [packStepAux_zero_eq] at hlt ⊢
  split_ifs at hlt ⊢ with hk0
  · have hover := packStepAux_zero_overflow sz lo hi L hw hk0
    show hi < sz (w.take 1 ++ (splitLevel (L + 1) (w.drop 1)).headI)
    calc hi < sz (w.take 1) := hover
      _ ≤ sz (w.take 1 ++ (splitLevel (L + 1) (w.drop 1)).headI) := hmono _ _
  · exact packAt_max sz lo hi false (L + 1) hmono (Nat.pos_of_ne_zero hk0) hlt

theorem packStepAux_zero_lo (lo hi L : Nat) (hlo : 0 < lo) (hlohi : lo ≤ hi)
    {w : List Char} (hw : w ≠ []) :
    lo ≤ (packStepAux charSizer lo hi 0 (L + 1) w).1 ∨
      ((packStepAux charSizer lo hi 0 (L + 1) w).1 = w.length ∧ w.length ≤ hi) := by
  rw [packStepAux_zero_eq]
  split_ifs with hk0
  · exfalso
    have hover := packStepAux_zero_overflow charSizer lo hi L hw hk0
    have h1 : (w.take 1).length = 1 := by
      rw [List.length_take]
      have := List.length_pos.mpr hw
      omega
    have hover2 : hi < (w.take 1).length := hover
    omega
  · show lo ≤ packAt charSizer lo hi false (L + 1) w ∨ _
    have hkpos := Nat.pos_of_ne_zero hk0
    simp only [packAt]
    split_ifs with hbase hcond
    · left
      exact hbase
    · exact absurd hcond.2 (by simp)
    · rcases Nat.lt_or_ge (packCount charSizer hi [] (splitLevel (L + 1) w))
          (splitLevel (L + 1) w).length with hklt | hkge
      · exfalso
        have hstop := packCount_stop charSizer hi (splitLevel (L + 1) w) [] hklt
        rw [List.nil_append, flatten_take_succ hklt] at hstop
        have hstop2 : hi < (((splitLevel (L + 1) w).take
            (packCount charSizer hi [] (splitLevel (L + 1) w))).flatten ++
            ((splitLevel (L + 1) w).drop
            (packCount charSizer hi [] (splitLevel (L + 1) w))).headI).length := hstop
        rw [List.length_append] at hstop2
        have hone : ((splitLevel (L + 1) w).drop
            (packCount charSizer hi [] (splitLevel (L + 1) w))).headI.length = 1 := by
          apply length_mem_charSections (w := w)
          rw [← splitLevel_succ_eq L w]
          refine List.mem_of_mem_drop (headI_mem_of_ne_nil ?_)
          apply List.ne_nil_of_length_pos
          rw [List.length_drop]
          omega
        have hbase2 : ¬ (lo ≤ (((splitLevel (L + 1) w).take
            (packCount charSizer hi [] (splitLevel (L + 1) w))).flatten).length) := hbase
        omega
      · right
        have hkeq : (splitLevel (L + 1) w).take
            (packCount charSizer hi [] (splitLevel (L + 1) w)) = splitLevel (L + 1) w :=
          List.take_of_length_le hkge
        have hfits := packCount_fits charSizer hi (splitLevel (L + 1) w) [] hkpos
        rw [hkeq, List.nil_append, splitLevel_flatten] at hfits
        rw [hkeq, splitLevel_flatten]
        exact ⟨rfl, hfits⟩

theorem packStepAux_one_le (sz : Sizer) (lo hi : Nat) {w : List Char} (hw : w ≠ []) :
    (packStepAux sz lo hi 0 1 w).1 ≤ w.length := packStepAux_zero_le sz lo hi 1 hw

theorem packStepAux_one_size (sz : Sizer) (lo hi : Nat) {w : List Char} (hw : w ≠ []) :
    sz (w.take (packStepAux sz lo hi 0 1 w).1) ≤ hi ∨
      ((packStepAux sz lo hi 0 1 w).1 = 1 ∧ hi < sz (w.take (packStepAux sz lo hi 0 1 w).1)) := by
  have h := packStepAux_zero_size sz lo hi 0 hw
  simpa using h

theorem packStepAux_one_max (sz : Sizer) (lo hi : Nat) {w : List Char} (hmono : Mono sz)
    (hw : w ≠ []) (hlt : (packStepAux sz lo hi 0 1 w).1 < w.length) :
    hi < sz (w.take (packStepAux sz lo hi 0 1 w).1 ++
      (splitLevel 1 (w.drop (packStepAux sz lo hi 0 1 w).1)).headI) := by
  have h := packStepAux_zero_max sz lo hi 0 hmono hw (by simpa using hlt)
  simpa using h

theorem packStepAux_one_lo (lo hi : Nat) (hlo : 0 < lo) (hlohi : lo ≤ hi) {w : List Char}
    (hw : w ≠ []) :
    lo ≤ (packStepAux charSizer lo hi 0 1 w).1 ∨
      ((packStepAux charSizer lo hi 0 1 w).1 = w.length ∧ w.length ≤ hi) := by
  have h := packStepAux_zero_lo lo hi 0 hlo hlohi hw
  simpa using h

theorem packStep_eq (sz : Sizer) (lo hi : Nat) (w : List Char) :
    packStep sz lo hi w =
      if packCount sz hi [] (splitLevel 0 w) = 0 then
        packStepAux sz lo hi 0 1 ((splitLevel 0 w).headI)
      else (packAt sz lo hi true 0 w, 0) := rfl

theorem lineSections_headI_decomp {w : List Char} (hw : w ≠ []) :
    w = (splitLevel 0 w).headI ++ ((splitLevel 0 w).drop 1).flatten ∧
      (splitLevel 0 w).headI ≠ [] := by
  have hne : splitLevel 0 w ≠ [] := splitLevel_ne_nil 0 hw
  cases hLS : splitLevel 0 w with
  | nil => exact absurd hLS hne
  | cons s rest =>
      have hs : s ∈ splitLevel 0 w := by rw [hLS]; exact List.mem_cons_self _ _
      constructor
      · have hfl := splitLevel_flatten 0 w
        rw [hLS, List.flatten_cons] at hfl
        simpa using hfl.symm
      · simpa using mem_splitLevel_ne_nil hs

theorem packStep_outer_stop (sz : Sizer) (lo hi : Nat) {w : List Char} (hw : w ≠ [])
    (hk0 : packCount sz hi [] (splitLevel 0 w) = 0) :
    hi < sz ((splitLevel 0 w).headI) := by
  have hlen : 0 < (splitLevel 0 w).length := List.length_pos.mpr (splitLevel_ne_nil 0 hw)
  have hstop := packCount_stop sz hi (splitLevel 0 w) [] (by omega)
  rw [hk0, flatten_take_succ hlen] at hstop
  simpa using hstop

theorem packStep_pos (sz : Sizer) (lo hi : Nat) {w : List Char} (hw : w ≠ []) :
    0 < (packStep sz lo hi w).1 := by
  rw [packStep_eq]
  split_ifs with hk0
  · exact packStepAux_zero_pos sz lo hi 1 (lineSections_headI_decomp hw).2
  · exact packAt_pos sz lo hi true 0 hw (Nat.pos_of_ne_zero hk0)

theorem packStep_le (sz : Sizer) (lo hi : Nat) {w : List Char} (hw : w ≠ []) :
    (packStep sz lo hi w).1 ≤ w.length := by
  rw [packStep_eq]
  split_ifs with hk0
  · obtain ⟨hdec, hs1⟩ := lineSections_headI_decomp hw
    have h := packStepAux_one_le sz lo hi hs1
    have hlen : ((splitLevel 0 w).headI).length ≤ w.length := by
      conv_rhs => rw [hdec]
      rw [List.length_append]
      omega
    omega
  · exact packAt_le sz lo hi true 0 w

theorem packStep_size (sz : Sizer) (lo hi : Nat) {w : List Char} (hw : w ≠ []) :
    sz (w.take (packStep sz lo hi w).1) ≤ hi ∨
      ((packStep sz lo hi w).1 = 1 ∧ hi < sz (w.take (packStep sz lo hi w).1)) := by
  rw [packStep_eq]
  split_ifs with hk0
  · obtain ⟨hdec, hs1⟩ := lineSections_headI_decomp hw
    have hsz := packStepAux_one_size sz lo hi hs1
    have hnle := packStepAux_one_le sz lo hi hs1
    obtain ⟨n, hn⟩ : ∃ n, (packStepAux sz lo hi 0 1 ((splitLevel 0 w).headI)).1 = n := ⟨_, rfl⟩
    rw [hn] at hsz hnle ⊢
    have htake : w.take n = ((splitLevel 0 w).headI).take n := by
      conv_lhs => rw [hdec]
      exact take_append_of_le hnle
    rw [htake]
    exact hsz
  · exact Or.inl (packAt_fits sz lo hi true 0 w (Nat.pos_of_ne_zero hk0))

theorem packStep_max (sz : Sizer) (lo hi : Nat) {w : List Char} (hmono : Mono sz) (hw : w ≠ [])
    (hlt : (packStep sz lo hi w).1 < w.length) :
    hi < sz (w.take (packStep sz lo hi w).1 ++
      (splitLevel (packStep sz lo hi w).2 (w.drop (packStep sz lo hi w).1)).headI) := by
  rw [packStep_eq] at hlt ⊢
  split_ifs at hlt ⊢ with hk0
  · obtain ⟨hdec, hs1⟩ := lineSections_headI_decomp hw
    have hsnd : (packStepAux sz lo hi 0 1 ((splitLevel 0 w).headI)).2 = 1 :=
      packStepAux_zero_snd sz lo hi 1 _
    rw [hsnd]
    have houter := packStep_outer_stop sz lo hi hw hk0
    have hnle := packStepAux_one_le sz lo hi hs1
    have hmax0 := packStepAux_one_max sz lo hi hmono hs1
    obtain ⟨n, hn⟩ : ∃ n, (packStepAux sz lo hi 0 1 ((splitLevel 0 w).headI)).1 = n := ⟨_, rfl⟩
    rw [hn] at hnle hlt ⊢
    rcases Nat.lt_or_ge n ((splitLevel 0 w).headI).length with hcase | hcase
    · have hmax := hmax0 (by rw [hn]; exact hcase)
      rw [hn] at hmax
      have htake : w.take n = ((splitLevel 0 w).headI).take n := by
        conv_lhs => rw [hdec]
        exact take_append_of_le (le_of_lt hcase)
      have hdropw : w.drop n =
          ((splitLevel 0 w).headI).drop n ++ ((splitLevel 0 w).drop 1).flatten := by
        conv_lhs => rw [hdec]
        exact drop_append_of_le (le_of_lt hcase)
      have hdne : ((splitLevel 0 w).headI).drop n ≠ [] := by
        apply List.ne_nil_of_length_pos
        rw [List.length_drop]
        omega
      have hwdne : w.drop n ≠ [] := by
        apply List.ne_nil_of_length_pos
        rw [List.length_drop]
        omega
      have hheads : (splitLevel 1 (w.drop n)).headI =
          (splitLevel 1 (((splitLevel 0 w).headI).drop n)).headI := by
        rw [show splitLevel 1 (w.drop n) = charSections (w.drop n) from rfl,
          show splitLevel 1 (((splitLevel 0 w).headI).drop n) =
            charSections (((splitLevel 0 w).headI).drop n) from rfl,
          charSections_headI hwdne, charSections_headI hdne]
        congr 1
        rw [hdropw]
        exact headI_append_of_ne_nil _ hdne
      rw [htake, hheads]
      exact hmax
    · have hneq : n = ((splitLevel 0 w).headI).length := le_antisymm hnle hcase
      have htake : w.take n = (splitLevel 0 w).headI := by
        conv_lhs => rw [hdec]
        rw [take_append_of_le hnle, hneq, List.take_length]
      calc hi < sz (w.take n) := by rw [htake]; exact houter
        _ ≤ sz (w.take n ++ (splitLevel 1 (w.drop n)).headI) := hmono _ _
  · exact packAt_max sz lo hi true 0 hmono (Nat.pos_of_ne_zero hk0) hlt

theorem packStep_lo (lo hi : Nat) (hlo : 0 < lo) (hlohi : lo ≤ hi) {w : List Char}
    (hw : w ≠ []) :
    lo ≤ (packStep charSizer lo hi w).1 ∨
      ((packStep charSizer lo hi w).1 = w.length ∧ w.length ≤ hi) := by
  rw [packStep_eq]
  split_ifs with hk0
  · obtain ⟨hdec, hs1⟩ := lineSections_headI_decomp hw
    have houter := packStep_outer_stop charSizer lo hi hw hk0
    rcases packStepAux_one_lo lo hi hlo hlohi hs1 with h | ⟨hn, hfit⟩
    · exact Or.inl h
    · exfalso
      have h1 : ((splitLevel 0 w).headI).length ≤ hi := hfit
      have h2 : hi < ((splitLevel 0 w).headI).length := houter
      omega
  · have hkpos := Nat.pos_of_ne_zero hk0
    show lo ≤ packAt charSizer lo hi true 0 w ∨ _
    simp only [packAt]
    split_ifs with hbase hcond
    · left
      exact hbase
    · left
      obtain ⟨hklen, -⟩ := hcond
      generalize hs' : ((splitLevel 0 w).drop (packCount charSizer hi [] (splitLevel 0 w))).headI = s'
      generalize hj : packCount charSizer hi
        (((splitLevel 0 w).take (packCount charSizer hi [] (splitLevel 0 w))).flatten)
        (splitLevel (0 + 1) s') = j
      have hs'mem : s' ∈ splitLevel 0 w := by
        rw [← hs']
        refine List.mem_of_mem_drop (headI_mem_of_ne_nil ?_)
        apply List.ne_nil_of_length_pos
        rw [List.length_drop]
        omega
      have hs'ne : s' ≠ [] := mem_splitLevel_ne_nil hs'mem
      have hs'pos : 0 < s'.length := List.length_pos.mpr hs'ne
      have hjle : j ≤ s'.length := by
        rw [← hj]
        have h := packCount_le charSizer hi (splitLevel (0 + 1) s')
          (((splitLevel 0 w).take (packCount charSizer hi [] (splitLevel 0 w))).flatten)
        rwa [splitLevel_succ_length] at h
      have hstop0 := packCount_stop charSizer hi (splitLevel 0 w) [] hklen
      rw [List.nil_append, flatten_take_succ hklen, hs'] at hstop0
      have hstop1 : hi < (((splitLevel 0 w).take
          (packCount charSizer hi [] (splitLevel 0 w))).flatten ++ s').length := hstop0
      rw [List.length_append] at hstop1
      have hjlt : j < s'.length := by
        rcases Nat.lt_or_ge j s'.length with h | h
        · exact h
        · exfalso
          have hj_eq : j = s'.length := le_antisymm hjle h
          have hfits := packCount_fits charSizer hi (splitLevel (0 + 1) s')
            (((splitLevel 0 w).take (packCount charSizer hi [] (splitLevel 0 w))).flatten)
            (by omega)
          rw [hj, splitLevel_succ_flatten_take, hj_eq, List.take_of_length_le le_rfl] at hfits
          have hfits2 : (((splitLevel 0 w).take
              (packCount charSizer hi [] (splitLevel 0 w))).flatten ++ s').length ≤ hi := hfits
          rw [List.length_append] at hfits2
          omega
      have hstopj := packCount_stop charSizer hi (splitLevel (0 + 1) s')
        (((splitLevel 0 w).take (packCount charSizer hi [] (splitLevel 0 w))).flatten)
        (by rw [splitLevel_succ_length]; omega)
      rw [hj, splitLevel_succ_flatten_take] at hstopj
      have hstopj2 : hi < (((splitLevel 0 w).take
          (packCount charSizer hi [] (splitLevel 0 w))).flatten ++ s'.take (j + 1)).length :=
        hstopj
      rw [List.length_append, List.length_take] at hstopj2
      have hmin : min (j + 1) s'.length = j + 1 := by omega
      rw [hmin] at hstopj2
      omega
    · right
      have hkge : (splitLevel 0 w).length ≤ packCount charSizer hi [] (splitLevel 0 w) := by
        by_contra hlt2
        push_neg at hlt2
        exact hcond ⟨hlt2, trivial⟩
      have hkeq : (splitLevel 0 w).take (packCount charSizer hi [] (splitLevel 0 w)) =
          splitLevel 0 w := List.take_of_length_le hkge
      have hfits := packCount_fits charSizer hi (splitLevel 0 w) [] hkpos
      rw [hkeq, List.nil_append, splitLevel_flatten] at hfits
      rw [hkeq, splitLevel_flatten]
      exact ⟨rfl, hfits⟩

/-! ### Lemmas about overlap retreat and the chunk engine -/

theorem foldr_max_zero_or_mem (l : List Nat) :
    l.foldr Nat.max 0 = 0 ∨ l.foldr Nat.max 0 ∈ l := by
  induction l with
  | nil => exact Or.inl rfl
  | cons x l ih =>
      rw [List.foldr_cons]
      rcases Nat.le_total x (l.foldr Nat.max 0) with h | h
      · have hmax : x.max (l.foldr Nat.max 0) = l.foldr Nat.max 0 := Nat.max_eq_right h
        rw [hmax]
        rcases ih with h0 | hm
        · exact Or.inl h0
        · exact Or.inr (List.mem_cons_of_mem _ hm)
      · have hmax : x.max (l.foldr Nat.max 0) = x := Nat.max_eq_left h
        rw [hmax]
        exact Or.inr (List.mem_cons_self _ _)

theorem mem_alignedLens_bound {L : Nat} {chunk : List Char} {r : Nat}
    (h : r ∈ alignedLens L chunk) : r + 1 ≤ chunk.length := by
  unfold alignedLens at h
  obtain ⟨j, hj, hr⟩ := List.mem_map.mp h
  have hjlt : j < (splitLevel L chunk).length := List.mem_range.mp hj
  have hlen := congrArg List.length (flatten_take_append_drop (splitLevel L chunk) (j + 1))
  rw [List.length_append, splitLevel_flatten] at hlen
  have hSne : splitLevel L chunk ≠ [] := List.ne_nil_of_length_pos (by omega)
  have hpos : 0 < ((splitLevel L chunk).take (j + 1)).flatten.length :=
    flatten_take_pos (fun s hs => mem_splitLevel_ne_nil hs) hSne (Nat.succ_pos j)
  have hr' : ((splitLevel L chunk).drop (j + 1)).flatten.length = r := hr
  omega

theorem alignedRetreat_zero_or (sz : Sizer) (ov L : Nat) (chunk : List Char) :
    alignedRetreat sz ov L chunk = 0 ∨
      (alignedRetreat sz ov L chunk ∈ alignedLens L chunk ∧
        0 < alignedRetreat sz ov L chunk ∧
        sz (chunk.drop (chunk.length - alignedRetreat sz ov L chunk)) ≤ ov) := by
  unfold alignedRetreat
  rcases foldr_max_zero_or_mem ((alignedLens L chunk).filter
      (fun r => decide (0 < r ∧ sz (chunk.drop (chunk.length - r)) ≤ ov))) with h0 | hm
  · exact Or.inl h0
  · obtain ⟨hmem, hp⟩ := List.mem_filter.mp hm
    have hp' := of_decide_eq_true hp
    exact Or.inr ⟨hmem, hp'.1, hp'.2⟩

theorem retreat_zero (sz : Sizer) (L : Nat) (chunk : List Char) :
    retreat sz 0 L chunk = 0 := by
  unfold retreat
  simp

theorem retreat_le (sz : Sizer) (ov L : Nat) (chunk : List Char) :
    retreat sz ov L chunk ≤ chunk.length - 1 := by
  unfold retreat
  split_ifs with h1 h2
  · exact Nat.zero_le _
  · rcases alignedRetreat_zero_or sz ov L chunk with h0 | ⟨hmem, -, -⟩
    · exact absurd h0 h2
    · have := mem_alignedLens_bound hmem
      omega
  · exact Nat.findGreatest_le _

theorem retreat_charSizer_bounds (ov L : Nat) (chunk : List Char) (hov : 0 < ov)
    (hlen : 2 ≤ chunk.length) :
    1 ≤ retreat charSizer ov L chunk ∧ retreat charSizer ov L chunk ≤ ov := by
  unfold retreat
  rw [if_neg (by omega)]
  split_ifs with h2
  · rcases alignedRetreat_zero_or charSizer ov L chunk with h0 | ⟨hmem, hpos, hsz⟩
    · exact absurd h0 h2
    · have hb := mem_alignedLens_bound hmem
      have hsz' : (chunk.drop (chunk.length - alignedRetreat charSizer ov L chunk)).length
          ≤ ov := hsz
      rw [List.length_drop] at hsz'
      exact ⟨hpos, by omega⟩
  · constructor
    · apply Nat.le_findGreatest (by omega : 1 ≤ chunk.length - 1)
      show charSizer (chunk.drop (chunk.length - 1)) ≤ ov
      have h1 : (chunk.drop (chunk.length - 1)).length ≤ ov := by
        rw [List.length_drop]
        omega
      exact h1
    · have hp0 : charSizer (chunk.drop (chunk.length - 0)) ≤ ov := by
        show (chunk.drop (chunk.length - 0)).length ≤ ov
        rw [List.length_drop]
        omega
      have hspec := Nat.findGreatest_spec
        (P := fun r => charSizer (chunk.drop (chunk.length - r)) ≤ ov)
        (Nat.zero_le (chunk.length - 1)) hp0
      have hle := Nat.findGreatest_le
        (P := fun r => charSizer (chunk.drop (chunk.length - r)) ≤ ov) (chunk.length - 1)
      have hspec' : (chunk.drop (chunk.length -
          Nat.findGreatest (fun r => charSizer (chunk.drop (chunk.length - r)) ≤ ov)
            (chunk.length - 1))).length ≤ ov := hspec
      rw [List.length_drop] at hspec'
      omega

theorem engineSpans_zero_eq (sz : Sizer) (lo hi ov a : Nat) (w : List Char) :
    engineSpans sz lo hi ov 0 a w = [] := rfl

theorem engineSpans_succ_eq (sz : Sizer) (lo hi ov fuel a : Nat) (w : List Char) :
    engineSpans sz lo hi ov (fuel + 1) a w =
      if w.isEmpty then []
      else if w.length ≤ (packStep sz lo hi w).1 then
        [(a, (packStep sz lo hi w).1, (packStep sz lo hi w).2)]
      else (a, (packStep sz lo hi w).1, (packStep sz lo hi w).2) ::
        engineSpans sz lo hi ov fuel
          (a + (packStep sz lo hi w).1 -
            retreat sz ov (packStep sz lo hi w).2 (w.take (packStep sz lo hi w).1))
          (w.drop ((packStep sz lo hi w).1 -
            retreat sz ov (packStep sz lo hi w).2 (w.take (packStep sz lo hi w).1))) := rfl

theorem engineSpans_window (sz : Sizer) (lo hi ov : Nat) (t : List Char) :
    ∀ (fuel a : Nat) (x : Nat × Nat × Nat),
      x ∈ engineSpans sz lo hi ov fuel a (t.drop a) →
      t.drop x.1 ≠ [] ∧ x.2 = packStep sz lo hi (t.drop x.1) := by
  intro fuel
  induction fuel with
  | zero =>
      intro a x hx
      simp [engineSpans_zero_eq] at hx
  | succ fuel ih =>
      intro a x hx
      rw [engineSpans_succ_eq] at hx
      split_ifs at hx with hempty hlast
      · simp at hx
      · simp at hx
        subst hx
        refine ⟨by simpa [List.isEmpty_iff] using hempty, rfl⟩
      · rcases List.mem_cons.mp hx with hx | hx
        · subst hx
          refine ⟨by simpa [List.isEmpty_iff] using hempty, rfl⟩
        · have hwne : t.drop a ≠ [] := by simpa [List.isEmpty_iff] using hempty
          have hpos := packStep_pos sz lo hi hwne
          have hr := retreat_le sz ov (packStep sz lo hi (t.drop a)).2
            ((t.drop a).take (packStep sz lo hi (t.drop a)).1)
          rw [List.length_take, Nat.min_eq_left (le_of_lt (Nat.lt_of_not_le hlast))] at hr
          have hrw : (t.drop a).drop ((packStep sz lo hi (t.drop a)).1 -
              retreat sz ov (packStep sz lo hi (t.drop a)).2
                ((t.drop a).take (packStep sz lo hi (t.drop a)).1)) =
              t.drop (a + (packStep sz lo hi (t.drop a)).1 -
                retreat sz ov (packStep sz lo hi (t.drop a)).2
                  ((t.drop a).take (packStep sz lo hi (t.drop a)).1)) := by
            rw [List.drop_drop]
            congr 1
            omega
          rw [hrw] at hx
          exact ih _ x hx

theorem engineSpans_lb (sz : Sizer) (lo hi ov : Nat) :
    ∀ (fuel a : Nat) (w : List Char) (x : Nat × Nat × Nat),
      x ∈ engineSpans sz lo hi ov fuel a w → a ≤ x.1 := by
  intro fuel
  induction fuel with
  | zero =>
      intro a w x hx
      simp [engineSpans_zero_eq] at hx
  | succ fuel ih =>
      intro a w x hx
      rw [engineSpans_succ_eq] at hx
      split_ifs at hx with hempty hlast
      · simp at hx
      · simp at hx
        subst hx
        exact le_rfl
      · rcases List.mem_cons.mp hx with hx | hx
        · subst hx
          exact le_rfl
        · have h := ih _ _ x hx
          have hwne : w ≠ [] := by simpa [List.isEmpty_iff] using hempty
          have hpos := packStep_pos sz lo hi hwne
          have hr := retreat_le sz ov (packStep sz lo hi w).2 (w.take (packStep sz lo hi w).1)
          rw [List.length_take, Nat.min_eq_left (le_of_lt (Nat.lt_of_not_le hlast))] at hr
          omega

theorem engineSpans_head_mem {sz : Sizer} {lo hi ov fuel a : Nat} {w : List Char}
    {y : Nat × Nat × Nat} (hy : y ∈ (engineSpans sz lo hi ov fuel a w).head?) :
    y.1 = a ∧ y.2 = packStep sz lo hi w ∧ w ≠ [] := by
  cases fuel with
  | zero => simp [engineSpans_zero_eq] at hy
  | succ fuel =>
      rw [engineSpans_succ_eq] at hy
      split_ifs at hy with hempty hlast
      · simp at hy
      · simp at hy
        subst hy
        exact ⟨rfl, rfl, by simpa [List.isEmpty_iff] using hempty⟩
      · simp at hy
        subst hy
        exact ⟨rfl, rfl, by simpa [List.isEmpty_iff] using hempty⟩

theorem engineSpans_chain_lt (sz : Sizer) (lo hi ov : Nat) :
    ∀ (fuel a : Nat) (w : List Char),
      List.Chain' (fun x y => x.1 < y.1) (engineSpans sz lo hi ov fuel a w) := by
  intro fuel
  induction fuel with
  | zero =>
      intro a w
      simp [engineSpans_zero_eq]
  | succ fuel ih =>
      intro a w
      rw [engineSpans_succ_eq]
      split_ifs with hempty hlast
      · simp
      · simp
      · rw [List.chain'_cons']
        refine ⟨?_, ih _ _⟩
        intro y hy
        have hmem := List.mem_of_mem_head? hy
        have hlb := engineSpans_lb sz lo hi ov fuel _ _ y hmem
        have hwne : w ≠ [] := by simpa [List.isEmpty_iff] using hempty
        have hpos := packStep_pos sz lo hi hwne
        have hr := retreat_le sz ov (packStep sz lo hi w).2 (w.take (packStep sz lo hi w).1)
        rw [List.length_take, Nat.min_eq_left (le_of_lt (Nat.lt_of_not_le hlast))] at hr
        show a < y.1
        omega

theorem engineSpans_cover (sz : Sizer) (lo hi : Nat) (t : List Char) :
    ∀ (fuel a : Nat), (t.drop a).length ≤ fuel →
      ((engineSpans sz lo hi 0 fuel a (t.drop a)).map
        (fun x => sliceAt t x.1 x.2.1)).flatten = t.drop a := by
  intro fuel
  induction fuel with
  | zero =>
      intro a hle
      have hnil : t.drop a = [] := by
        cases h : t.drop a with
        | nil => rfl
        | cons c l =>
            rw [h] at hle
            simp at hle
      rw [engineSpans_zero_eq]
      simpa using hnil.symm
  | succ fuel ih =>
      intro a hle
      rw [engineSpans_succ_eq]
      split_ifs with hempty hlast
      · have hnil : t.drop a = [] := by simpa [List.isEmpty_iff] using hempty
        simpa using hnil.symm
      · simp only [List.map_cons, List.map_nil, List.flatten_cons, List.flatten_nil,
          List.append_nil]
        exact List.take_of_length_le hlast
      · simp only [List.map_cons, List.flatten_cons]
        have hwne : t.drop a ≠ [] := by simpa [List.isEmpty_iff] using hempty
        have hpos := packStep_pos sz lo hi hwne
        simp only [retreat_zero, Nat.sub_zero]
        have hrw : (t.drop a).drop (packStep sz lo hi (t.drop a)).1 =
            t.drop (a + (packStep sz lo hi (t.drop a)).1) := by
          rw [List.drop_drop, Nat.add_comm]
        rw [hrw, ih (a + (packStep sz lo hi (t.drop a)).1) ?hfuel]
        case hfuel =>
          rw [List.length_drop] at hle ⊢
          omega
        show (t.drop a).take (packStep sz lo hi (t.drop a)).1 ++
          t.drop (a + (packStep sz lo hi (t.drop a)).1) = t.drop a
        rw [← hrw, List.take_append_drop]

theorem filterMap_emitChunk_false (t : List Char) (S : List (Nat × Nat × Nat)) :
    S.filterMap (emitChunk t false) = S.map (fun x => sliceAt t x.1 x.2.1) := by
  induction S with
  | nil => rfl
  | cons x S ih =>
      rw [List.filterMap_cons]
      simpa [emitChunk] using congrArg (List.cons (sliceAt t x.1 x.2.1)) ih

theorem filterMap_emitIndex_false (t : List Char) (S : List (Nat × Nat × Nat)) :
    S.filterMap (emitIndex t false) = S.map (fun x => (x.1, sliceAt t x.1 x.2.1)) := by
  induction S with
  | nil => rfl
  | cons x S ih =>
      rw [List.filterMap_cons]
      simpa [emitIndex] using congrArg (List.cons (x.1, sliceAt t x.1 x.2.1)) ih

/-! ### Trimming structure -/

theorem stripL_eq_drop (s : List Char) : stripL s = s.drop (wsLead s) := by
  unfold stripL wsLead
  induction s with
  | nil => rfl
  | cons c s ih => by_cases h : isWs c <;> simp [h, ih]

theorem stripR_decomp (u : List Char) : u = stripR u ++ (u.reverse.takeWhile isWs).reverse := by
  rw [stripR, ← List.reverse_append, List.takeWhile_append_dropWhile, List.reverse_reverse]

theorem stripR_eq_take (u : List Char) : stripR u = u.take (stripR u).length := by
  calc stripR u = (stripR u ++ (u.reverse.takeWhile isWs).reverse).take (stripR u).length :=
        (List.take_left _ _).symm
    _ = u.take (stripR u).length := by rw [← stripR_decomp]

theorem stripR_length_le (u : List Char) : (stripR u).length ≤ u.length := by
  conv_rhs => rw [stripR_decomp u]
  rw [List.length_append]
  omega

theorem stripB_eq_drop_take (s : List Char) :
    ∃ m, stripB s = (s.drop (wsLead s)).take m := by
  refine ⟨(stripR (stripL s)).length, ?_⟩
  show stripR (stripL s) = _
  rw [← stripL_eq_drop]
  exact stripR_eq_take (stripL s)

theorem take_length_of_take_eq {l p : List Char} {m : Nat} (h : p = l.take m) :
    l.take p.length = p := by
  subst h
  rw [List.length_take]
  rcases Nat.le_total m l.length with h | h
  · rw [Nat.min_eq_left h]
  · rw [Nat.min_eq_right h, List.take_of_length_le h, List.take_of_length_le le_rfl]

theorem stripB_length_le (s : List Char) : (stripB s).length + wsLead s ≤ s.length := by
  have h1 : (stripB s).length ≤ (stripL s).length := stripR_length_le (stripL s)
  have h2 : (stripL s).length = s.length - wsLead s := by
    rw [stripL_eq_drop, List.length_drop]
  have h3 : wsLead s ≤ s.length := by
    unfold wsLead
    have h4 := congrArg List.length (List.takeWhile_append_dropWhile (p := isWs) (l := s))
    rw [List.length_append] at h4
    omega
  omega

theorem wsLead_lt_of_stripB_ne {s : List Char} (h : ¬(stripB s).isEmpty = true) :
    wsLead s < s.length := by
  have h1 : stripL s ≠ [] := by
    intro h2
    apply h
    show (stripR (stripL s)).isEmpty = true
    rw [h2]
    rfl
  have h4 := congrArg List.length (List.takeWhile_append_dropWhile (p := isWs) (l := s))
  rw [List.length_append] at h4
  have h5 : 0 < (s.dropWhile isWs).length := List.length_pos.mpr h1
  unfold wsLead
  omega

theorem take_length_take (l : List Char) (n : Nat) : l.take ((l.take n).length) = l.take n := by
  rw [List.length_take]
  rcases Nat.le_total n l.length with h | h
  · rw [Nat.min_eq_left h]
  · rw [Nat.min_eq_right h, List.take_of_length_le h, List.take_of_length_le le_rfl]

theorem emitIndex_true_some {t : List Char} {x : Nat × Nat × Nat} {p : Nat × List Char}
    (h : emitIndex t true x = some p) :
    p.1 = x.1 + wsLead (sliceAt t x.1 x.2.1) ∧ p.2 = stripB (sliceAt t x.1 x.2.1) ∧
      ¬(stripB (sliceAt t x.1 x.2.1)).isEmpty = true := by
  have h2 : (if (stripB (sliceAt t x.1 x.2.1)).isEmpty = true then none
      else some (x.1 + wsLead (sliceAt t x.1 x.2.1), stripB (sliceAt t x.1 x.2.1))) = some p := h
  split_ifs at h2 with hemp
  have h3 := Option.some.inj h2
  rw [← h3]
  exact ⟨rfl, rfl, hemp⟩

theorem engineSpans_chain_trim (sz : Sizer) (lo hi : Nat) (t : List Char) :
    ∀ (fuel a : Nat),
      List.Chain' (fun p q => p.1 < q.1)
        ((engineSpans sz lo hi 0 fuel a (t.drop a)).filterMap (emitIndex t true)) ∧
      ∀ y ∈ (engineSpans sz lo hi 0 fuel a (t.drop a)).filterMap (emitIndex t true),
        a ≤ y.1 := by
  intro fuel
  induction fuel with
  | zero =>
      intro a
      simp [engineSpans_zero_eq]
  | succ fuel ih =>
      intro a
      rw [engineSpans_succ_eq]
      split_ifs with hempty hlast
      · simp
      · cases hemit : emitIndex t true (a, (packStep sz lo hi (t.drop a)).1,
            (packStep sz lo hi (t.drop a)).2) with
        | none => simp [List.filterMap_cons, hemit]
        | some p =>
            obtain ⟨hp1, hp2, hpne⟩ := emitIndex_true_some hemit
            have hp1' : p.1 = a + wsLead (sliceAt t a (packStep sz lo hi (t.drop a)).1) := hp1
            refine ⟨by simp [List.filterMap_cons, hemit], ?_⟩
            intro y hy
            simp only [List.filterMap_cons, hemit, List.filterMap_nil] at hy
            have hy' : y = p := by simpa using hy
            have hy1 : y.1 = a + wsLead (sliceAt t a (packStep sz lo hi (t.drop a)).1) := by
              rw [hy']
              exact hp1'
            omega
      · have hwne : t.drop a ≠ [] := by simpa [List.isEmpty_iff] using hempty
        have hpos := packStep_pos sz lo hi hwne
        simp only [retreat_zero, Nat.sub_zero]
        have hrw : (t.drop a).drop (packStep sz lo hi (t.drop a)).1 =
            t.drop (a + (packStep sz lo hi (t.drop a)).1) := by
          rw [List.drop_drop, Nat.add_comm]
        rw [hrw]
        obtain ⟨ihc, ihlb⟩ := ih (a + (packStep sz lo hi (t.drop a)).1)
        cases hemit : emitIndex t true (a, (packStep sz lo hi (t.drop a)).1,
            (packStep sz lo hi (t.drop a)).2) with
        | none =>
            refine ⟨?_, ?_⟩
            · simp only [List.filterMap_cons, hemit]
              exact ihc
            · intro y hy
              simp only [List.filterMap_cons, hemit] at hy
              have := ihlb y hy
              omega
        | some p =>
            obtain ⟨hp1, hp2, hpne⟩ := emitIndex_true_some hemit
            have hp1' : p.1 = a + wsLead (sliceAt t a (packStep sz lo hi (t.drop a)).1) := hp1
            have hpne' : ¬(stripB (sliceAt t a (packStep sz lo hi (t.drop a)).1)).isEmpty
                = true := hpne
            have hlead : wsLead (sliceAt t a (packStep sz lo hi (t.drop a)).1) <
                (packStep sz lo hi (t.drop a)).1 := by
              have h1 := wsLead_lt_of_stripB_ne hpne'
              have h2 : (sliceAt t a (packStep sz lo hi (t.drop a)).1).length ≤
                  (packStep sz lo hi (t.drop a)).1 := by
                show ((t.drop a).take _).length ≤ _
                rw [List.length_take]
                exact Nat.min_le_left _ _
              omega
            refine ⟨?_, ?_⟩
            · simp only [List.filterMap_cons, hemit]
              rw [List.chain'_cons']
              refine ⟨?_, ihc⟩
              intro y hy
              have hymem := List.mem_of_mem_head? hy
              have hylb := ihlb y hymem
              omega
            · intro y hy
              simp only [List.filterMap_cons, hemit] at hy
              rcases List.mem_cons.mp hy with rfl | hy
              · omega
              · have := ihlb y hy
                omega

theorem engineSpans_overlap_chain (lo hi ov : Nat) (hov : 0 < ov) (hovlo : ov < lo)
    (hlohi : lo ≤ hi) (t : List Char) :
    ∀ (fuel a : Nat),
      List.Chain' (fun x y => ∃ r, 0 < r ∧ r ≤ ov ∧ y.1 + r = x.1 + x.2.1 ∧
          lo ≤ x.2.1 ∧ x.1 + x.2.1 < t.length ∧ y.1 + y.2.1 ≤ t.length ∧ r < y.2.1)
        (engineSpans charSizer lo hi ov fuel a (t.drop a)) := by
  intro fuel
  induction fuel with
  | zero =>
      intro a
      simp [engineSpans_zero_eq]
  | succ fuel ih =>
      intro a
      rw [engineSpans_succ_eq]
      split_ifs with hempty hlast
      · simp
      · simp
      · have hwne : t.drop a ≠ [] := by simpa [List.isEmpty_iff] using hempty
        have hpos := packStep_pos charSizer lo hi hwne
        have hlen : (packStep charSizer lo hi (t.drop a)).1 < (t.drop a).length :=
          Nat.lt_of_not_le hlast
        have hlend : (t.drop a).length = t.length - a := List.length_drop a t
        have hnlo : lo ≤ (packStep charSizer lo hi (t.drop a)).1 := by
          rcases packStep_lo lo hi (by omega) hlohi hwne with h | ⟨h, -⟩
          · exact h
          · omega
        have hchunk : ((t.drop a).take (packStep charSizer lo hi (t.drop a)).1).length =
            (packStep charSizer lo hi (t.drop a)).1 := by
          rw [List.length_take]
          exact Nat.min_eq_left (le_of_lt hlen)
        obtain ⟨hret1, hret2⟩ := retreat_charSizer_bounds ov
          (packStep charSizer lo hi (t.drop a)).2
          ((t.drop a).take (packStep charSizer lo hi (t.drop a)).1) hov
          (by rw [hchunk]; omega)
        obtain ⟨r, hrdef⟩ : ∃ r, retreat charSizer ov (packStep charSizer lo hi (t.drop a)).2
            ((t.drop a).take (packStep charSizer lo hi (t.drop a)).1) = r := ⟨_, rfl⟩
        rw [hrdef] at hret1 hret2 ⊢
        have hrw : (t.drop a).drop ((packStep charSizer lo hi (t.drop a)).1 - r) =
            t.drop (a + (packStep charSizer lo hi (t.drop a)).1 - r) := by
          rw [List.drop_drop]
          congr 1
          omega
        rw [hrw, List.chain'_cons']
        refine ⟨?_, ih _⟩
        intro y hy
        obtain ⟨hy1, hy2, hwne'⟩ := engineSpans_head_mem hy
        have hy21 : y.2.1 = (packStep charSizer lo hi
            (t.drop (a + (packStep charSizer lo hi (t.drop a)).1 - r))).1 := by
          rw [hy2]
        have hwlen : (t.drop (a + (packStep charSizer lo hi (t.drop a)).1 - r)).length =
            t.length - (a + (packStep charSizer lo hi (t.drop a)).1 - r) :=
          List.length_drop _ t
        have hyle := packStep_le charSizer lo hi hwne'
        have hyn : r < y.2.1 := by
          rcases packStep_lo lo hi (by omega : 0 < lo) hlohi hwne' with h | ⟨h, -⟩
          · rw [← hy21] at h
            omega
          · rw [← hy21] at h
            rw [← hy21] at hyle
            have hwne2 : t.drop (a + (packStep charSizer lo hi (t.drop a)).1 - r) ≠ [] := hwne'
            have hwpos : 0 < (t.drop
                (a + (packStep charSizer lo hi (t.drop a)).1 - r)).length :=
              List.length_pos.mpr hwne2
            omega
        refine ⟨r, hret1, hret2, ?_, hnlo, ?_, ?_, hyn⟩
        · show y.1 + r = a + (packStep charSizer lo hi (t.drop a)).1
          omega
        · show a + (packStep charSizer lo hi (t.drop a)).1 < t.length
          omega
        · rw [← hy21] at hyle
          omega

/-! ### The claims -/

theorem charSizer_mono : Mono charSizer := by
  intro xs ys
  show xs.length ≤ (xs ++ ys).length
  rw [List.length_append]
  omega

/-- C1: for every splitter with trim disabled and overlap zero, concatenating
the chunks of chunks(t) in emission order reproduces the input text t exactly
(scalar for scalar, hence byte for byte). -/
theorem claim_C1_coverage (sz : Sizer) (lo hi : Nat) (t : List Char) :
    (chunks sz ⟨lo, hi, 0, false⟩ t).flatten = t := by
  show ((engineSpans sz lo hi 0 t.length 0 t).filterMap (emitChunk t false)).flatten = t
  rw [filterMap_emitChunk_false]
  have h := engineSpans_cover sz lo hi t t.length 0 (by simp)
  rw [List.drop_zero] at h
  exact h

/-- C2 counterexample: on the input with a multi-byte scalar the splitter reports
the second chunk at offset 4, the scalar-value (code point) offset used by the
Python binding; reading 4 as a byte offset and slicing the UTF-8 bytes of the
input there does not reproduce the chunk, so offsets are not byte offsets. -/
theorem claim_C2_counterexample :
    chunkIndices charSizer ⟨4, 4, 0, true⟩ ("12ü\n123".toList) =
      [(0, "12ü".toList), (4, "123".toList)] ∧
    ((utf8Encode ("12ü\n123".toList)).drop 4).take (utf8Encode ("123".toList)).length ≠
      utf8Encode ("123".toList) := by
  exact ⟨by decide, by decide⟩

/-- C2 amended: for every pair (i, s) returned by chunk_indices(t), i is a
Unicode-scalar (code point) offset into t and t[i .. i+len(s)] under code-point
slicing equals s, for both trim settings; multi-byte scalars therefore shift
subsequent byte positions but not the reported offsets. -/
theorem claim_C2_offsets (sz : Sizer) (cfg : Config) (t : List Char) :
    ∀ p ∈ chunkIndices sz cfg t, (t.drop p.1).take p.2.length = p.2 := by
  intro p hp
  obtain ⟨x, hx, hemit⟩ := List.mem_filterMap.mp hp
  cases htr : cfg.trim
  · rw [htr] at hemit
    have h2 : some (x.1, sliceAt t x.1 x.2.1) = some p := hemit
    have h3 := Option.some.inj h2
    rw [← h3]
    exact take_length_of_take_eq rfl
  · rw [htr] at hemit
    obtain ⟨hp1, hp2, -⟩ := emitIndex_true_some hemit
    obtain ⟨m, hm⟩ := stripB_eq_drop_take (sliceAt t x.1 x.2.1)
    have hsd : (sliceAt t x.1 x.2.1).drop (wsLead (sliceAt t x.1 x.2.1)) =
        (t.drop (x.1 + wsLead (sliceAt t x.1 x.2.1))).take
          (x.2.1 - wsLead (sliceAt t x.1 x.2.1)) := by
      show ((t.drop x.1).take x.2.1).drop _ = _
      rw [List.drop_take, List.drop_drop, Nat.add_comm]
    have hfin : stripB (sliceAt t x.1 x.2.1) =
        (t.drop (x.1 + wsLead (sliceAt t x.1 x.2.1))).take
          (min m (x.2.1 - wsLead (sliceAt t x.1 x.2.1))) := by
      rw [hm, hsd, List.take_take]
    rw [hp1, hp2]
    exact take_length_of_take_eq hfin

theorem claim_C2_offsets_witness :
    ((4, "123".toList) ∈ chunkIndices charSizer ⟨4, 4, 0, true⟩ ("12ü\n123".toList)) ∧
      ("12ü\n123".toList.drop 4).take ("123".toList.length) = "123".toList :=
  ⟨by decide, claim_C2_offsets charSizer ⟨4, 4, 0, true⟩ ("12ü\n123".toList)
    (4, "123".toList) (by decide)⟩

/-- C3: with trim disabled, every emitted chunk has size at most hi under the
configured sizer, except an overflow chunk that consists of exactly one
finest-level unit (a single Unicode scalar) whose size alone exceeds hi. -/
theorem claim_C3_size_bound (sz : Sizer) (lo hi ov : Nat) (t : List Char) :
    ∀ ch ∈ chunks sz ⟨lo, hi, ov, false⟩ t,
      sz ch ≤ hi ∨ (ch.length = 1 ∧ hi < sz ch) := by
  intro ch hch
  have hch2 : ch ∈ (engineSpans sz lo hi ov t.length 0 t).map
      (fun x => sliceAt t x.1 x.2.1) := by
    have heq : chunks sz ⟨lo, hi, ov, false⟩ t =
        (engineSpans sz lo hi ov t.length 0 t).map (fun x => sliceAt t x.1 x.2.1) :=
      filterMap_emitChunk_false t _
    rw [← heq]
    exact hch
  obtain ⟨x, hx, rfl⟩ := List.mem_map.mp hch2
  have hx0 : x ∈ engineSpans sz lo hi ov t.length 0 (t.drop 0) := by
    rw [List.drop_zero]
    exact hx
  obtain ⟨hwne, hpack⟩ := engineSpans_window sz lo hi ov t t.length 0 x hx0
  have hsz := packStep_size sz lo hi hwne
  rw [← hpack] at hsz
  rcases hsz with h | ⟨h1, h2⟩
  · exact Or.inl h
  · right
    constructor
    · show ((t.drop x.1).take x.2.1).length = 1
      rw [h1, List.length_take, Nat.min_eq_left (List.length_pos.mpr hwne)]
    · exact h2

theorem claim_C3_size_bound_witness :
    ("123\n".toList ∈ chunks charSizer ⟨4, 4, 0, false⟩ "123\n123".toList) ∧
      (charSizer ("123\n".toList) ≤ 4 ∨
        ("123\n".toList.length = 1 ∧ 4 < charSizer ("123\n".toList))) :=
  ⟨by decide, claim_C3_size_bound charSizer 4 4 0 ("123\n123".toList) ("123\n".toList) (by decide)⟩

/-- C4: no emitted chunk span can be extended by appending the next section at
the level at which it was emitted without its size exceeding hi, for any
monotone sizer (the spec requires sizer monotonicity); the spans and their
emission levels are shared by both trim settings. -/
theorem claim_C4_maximality (sz : Sizer) (lo hi ov : Nat) (tr : Bool) (t : List Char)
    (hmono : Mono sz) :
    ∀ x ∈ chunkSpans sz ⟨lo, hi, ov, tr⟩ t, x.1 + x.2.1 < t.length →
      hi < sz (sliceAt t x.1 x.2.1 ++ (splitLevel x.2.2 (t.drop (x.1 + x.2.1))).headI) := by
  intro x hx hlt
  have hx0 : x ∈ engineSpans sz lo hi ov t.length 0 (t.drop 0) := by
    rw [List.drop_zero]
    exact hx
  obtain ⟨hwne, hpack⟩ := engineSpans_window sz lo hi ov t t.length 0 x hx0
  have hwl : (t.drop x.1).length = t.length - x.1 := List.length_drop _ _
  have hlt2 : (packStep sz lo hi (t.drop x.1)).1 < (t.drop x.1).length := by
    rw [← hpack, hwl]
    omega
  have hmax := packStep_max sz lo hi hmono hwne hlt2
  rw [← hpack] at hmax
  have hdd : (t.drop x.1).drop x.2.1 = t.drop (x.1 + x.2.1) := by
    rw [List.drop_drop, Nat.add_comm]
  rw [hdd] at hmax
  exact hmax

theorem claim_C4_maximality_witness :
    Mono charSizer ∧
      ((0, 4, 0) ∈ chunkSpans charSizer ⟨4, 4, 0, false⟩ "123\n123".toList) ∧
      0 + 4 < "123\n123".toList.length ∧
      4 < charSizer (sliceAt ("123\n123".toList) 0 4 ++
        (splitLevel 0 ("123\n123".toList.drop (0 + 4))).headI) :=
  ⟨charSizer_mono, by decide, by decide,
    claim_C4_maximality charSizer 4 4 0 false ("123\n123".toList) charSizer_mono
      (0, 4, 0) (by decide) (by decide)⟩

/-- C5 counterexample: the claim fails in two independent ways.  First, with
a sizer under which every scalar has size 2, capacity (2,2) and overlap 1,
the splitter emits single-scalar chunks at consecutive offsets: the previous
chunk's size (2) is at least the overlap budget (1), yet the next chunk
starts exactly where the previous one ends, so no non-empty shared region
exists (any non-empty region would have size 2, exceeding the budget 1, for
any conforming implementation).  Second, with trimming on (the default of the
grounding test), chunks are trimmed after span selection, and consecutive
emitted chunks need not share any region: on "aa   bb" with the character
sizer, capacity (3,3) and overlap 2, the second trimmed chunk (1, "a") ends
at offset 2 while the third starts at offset 5, so they are disjoint. -/
theorem claim_C5_counterexample :
    (chunkIndices (fun s => 2 * s.length) ⟨2, 2, 1, false⟩ "abcd".toList =
      [(0, "a".toList), (1, "b".toList), (2, "c".toList), (3, "d".toList)] ∧
    1 ≤ (fun (s : List Char) => 2 * s.length) "a".toList ∧
    ¬ 1 < 0 + ("a".toList).length) ∧
    (chunkIndices charSizer ⟨3, 3, 2, true⟩ "aa   bb".toList =
      [(0, "aa".toList), (1, "a".toList), (5, "b".toList), (5, "bb".toList)] ∧
    1 + ("a".toList).length < 5) := by
  exact ⟨⟨by decide, by decide, by decide⟩, by decide, by decide⟩

/-- C5 amended: restricted to untrimmed chunks (trim=false; with trimming the
chunks are cut down after span selection and consecutive chunks can be
disjoint) and to the character sizer (any sizer whose single-unit sizes stay
within the overlap budget), under a valid configuration
0 < overlap < lo ≤ hi: each pair of consecutive chunks shares a non-empty
region that is a suffix of the earlier and a prefix of the later chunk, of
size at most the overlap budget k (the exact size is the largest suffix of
the earlier chunk within the budget that is aligned to a boundary of the
chunk's emission level, falling back to scalar boundaries, so it can be
smaller than k); with pathological sizers that assign a single scalar a size
above the budget the region can be empty. -/
theorem claim_C5_overlap (lo hi ov : Nat) (hov : 0 < ov) (hovlo : ov < lo)
    (hlohi : lo ≤ hi) (t : List Char) :
    List.Chain' (fun p q => ∃ r, 0 < r ∧ r ≤ ov ∧
        q.1 + r = p.1 + p.2.length ∧
        p.2.drop (p.2.length - r) = q.2.take r ∧
        charSizer (q.2.take r) ≤ ov ∧
        q.2.take r ≠ [])
      (chunkIndices charSizer ⟨lo, hi, ov, false⟩ t) := by
  have hchain := engineSpans_overlap_chain lo hi ov hov hovlo hlohi t t.length 0
  rw [List.drop_zero] at hchain
  have heq : chunkIndices charSizer ⟨lo, hi, ov, false⟩ t =
      (engineSpans charSizer lo hi ov t.length 0 t).map
        (fun x => (x.1, sliceAt t x.1 x.2.1)) :=
    filterMap_emitIndex_false t _
  rw [heq, List.chain'_map]
  refine List.Chain'.imp ?_ hchain
  intro x y hxy
  obtain ⟨r, hr0, hrov, h1, h3, h4, h5, h6⟩ := hxy
  have hsx : (sliceAt t x.1 x.2.1).length = x.2.1 := by
    show ((t.drop x.1).take x.2.1).length = x.2.1
    rw [List.length_take, List.length_drop]
    exact Nat.min_eq_left (by omega)
  have hsy : (sliceAt t y.1 y.2.1).length = y.2.1 := by
    show ((t.drop y.1).take y.2.1).length = y.2.1
    rw [List.length_take, List.length_drop]
    exact Nat.min_eq_left (by omega)
  refine ⟨r, hr0, hrov, ?_, ?_, ?_, ?_⟩
  · show y.1 + r = x.1 + (sliceAt t x.1 x.2.1).length
    rw [hsx]
    exact h1
  · show (sliceAt t x.1 x.2.1).drop ((sliceAt t x.1 x.2.1).length - r) =
        (sliceAt t y.1 y.2.1).take r
    rw [hsx]
    show ((t.drop x.1).take x.2.1).drop (x.2.1 - r) = ((t.drop y.1).take y.2.1).take r
    rw [List.drop_take, List.drop_drop, List.take_take]
    have e1 : x.2.1 - (x.2.1 - r) = r := by omega
    have e2 : x.1 + (x.2.1 - r) = y.1 := by omega
    have e3 : min r y.2.1 = r := Nat.min_eq_left (by omega)
    rw [e1, e2, e3]
  · show ((sliceAt t y.1 y.2.1).take r).length ≤ ov
    rw [List.length_take, hsy, Nat.min_eq_left (by omega)]
    exact hrov
  · show (sliceAt t y.1 y.2.1).take r ≠ []
    apply List.ne_nil_of_length_pos
    rw [List.length_take, hsy, Nat.min_eq_left (by omega)]
    omega

theorem claim_C5_overlap_witness :
    ((0 < 2 ∧ 2 < 4 ∧ (4 : Nat) ≤ 4) ∧
      chunkIndices charSizer ⟨4, 4, 2, false⟩ "1234567890".toList =
        [(0, "1234".toList), (2, "3456".toList), (4, "5678".toList), (6, "7890".toList)]) ∧
    List.Chain' (fun p q => ∃ r, 0 < r ∧ r ≤ 2 ∧
        q.1 + r = p.1 + p.2.length ∧
        p.2.drop (p.2.length - r) = q.2.take r ∧
        charSizer (q.2.take r) ≤ 2 ∧
        q.2.take r ≠ [])
      (chunkIndices charSizer ⟨4, 4, 2, false⟩ "1234567890".toList) :=
  ⟨⟨⟨by decide, by decide, by decide⟩, by decide⟩,
    claim_C5_overlap 4 4 2 (by decide) (by decide) (by decide) ("1234567890".toList)⟩

/-- C6: the trim=true output of chunk_indices equals the trim=false output of
the same configuration post-processed chunk by chunk: whitespace is stripped
from both edges, chunks that become empty are dropped, and each reported
offset is shifted to the position of the chunk's first non-whitespace
scalar in the original input. -/
theorem claim_C6_trim (sz : Sizer) (lo hi ov : Nat) (t : List Char) :
    chunkIndices sz ⟨lo, hi, ov, true⟩ t =
      (chunkIndices sz ⟨lo, hi, ov, false⟩ t).filterMap (fun p =>
        if (stripB p.2).isEmpty then none else some (p.1 + wsLead p.2, stripB p.2)) := by
  show (chunkSpans sz ⟨lo, hi, ov, true⟩ t).filterMap (emitIndex t true) =
    ((chunkSpans sz ⟨lo, hi, ov, true⟩ t).filterMap (emitIndex t false)).filterMap _
  rw [List.filterMap_filterMap]
  rfl

/-- C7 counterexample: with trimming and a positive overlap together, the
overlap retreat can re-cover the same non-whitespace scalars, and consecutive
trimmed chunks then report the same offset, so the offsets are not strictly
increasing. -/
theorem claim_C7_counterexample :
    chunkIndices charSizer ⟨3, 3, 2, true⟩ "  a    bcd".toList =
      [(2, "a".toList), (2, "a".toList), (2, "a".toList),
        (7, "b".toList), (7, "bc".toList), (7, "bcd".toList)] ∧
    ¬ List.Chain' (· < ·)
      ((chunkIndices charSizer ⟨3, 3, 2, true⟩ "  a    bcd".toList).map Prod.fst) := by
  have h : chunkIndices charSizer ⟨3, 3, 2, true⟩ "  a    bcd".toList =
      [(2, "a".toList), (2, "a".toList), (2, "a".toList),
        (7, "b".toList), (7, "bc".toList), (7, "bcd".toList)] := by decide
  refine ⟨h, ?_⟩
  rw [h]
  intro hc
  simp [List.chain'_cons] at hc

/-- C7 amended: the offsets emitted by chunk_indices are strictly increasing
whenever trimming is off or overlap is zero (in particular always with
trim=false, including under overlap); when trimming and overlap are both
enabled, consecutive chunks may repeat an offset. -/
theorem claim_C7_ordering (sz : Sizer) (lo hi ov : Nat) (tr : Bool) (t : List Char)
    (h : tr = false ∨ ov = 0) :
    List.Chain' (· < ·) ((chunkIndices sz ⟨lo, hi, ov, tr⟩ t).map Prod.fst) := by
  cases tr with
  | false =>
      have heq : chunkIndices sz ⟨lo, hi, ov, false⟩ t =
          (chunkSpans sz ⟨lo, hi, ov, false⟩ t).map (fun x => (x.1, sliceAt t x.1 x.2.1)) :=
        filterMap_emitIndex_false t _
      rw [heq, List.map_map, List.chain'_map]
      exact List.Chain'.imp (fun a b hab => hab)
        (engineSpans_chain_lt sz lo hi ov t.length 0 t)
  | true =>
      have hov : ov = 0 := by
        rcases h with h | h
        · exact absurd h (by simp)
        · exact h
      subst hov
      have hc := (engineSpans_chain_trim sz lo hi t t.length 0).1
      rw [List.drop_zero] at hc
      rw [List.chain'_map]
      exact List.Chain'.imp (fun a b hab => hab) hc

theorem claim_C7_ordering_witness :
    (false = false ∨ (0 : Nat) = 0) ∧
      List.Chain' (· < ·)
        ((chunkIndices charSizer ⟨4, 4, 0, false⟩ "123\n123".toList).map Prod.fst) :=
  ⟨Or.inl rfl, claim_C7_ordering charSizer 4 4 0 false ("123\n123".toList) (Or.inl rfl)⟩

/-- C8 counterexample: with the overlap validation the spec requires at
construction (overlap < lo, spec sections 4.6 and 6), construction with
lo ≤ hi does not always succeed: capacity (2,3) with overlap 2 satisfies
lo ≤ hi yet fails with invalidOverlap, refuting the claim's success half. -/
theorem claim_C8_counterexample :
    (2 : Nat) ≤ 3 ∧ mkSplitter 2 3 2 true = .error .invalidOverlap := by
  exact ⟨by decide, rfl⟩

/-- C8 amended: splitter construction with a capacity pair where lo > hi (for
example (2,1)) fails with invalidCapacity; with lo ≤ hi it succeeds exactly
when the spec's overlap constraint overlap < lo also holds, producing the
configured splitter, and fails with invalidOverlap when overlap ≥ lo. -/
theorem claim_C8_capacity (lo hi ov : Nat) (tr : Bool) :
    (hi < lo → mkSplitter lo hi ov tr = .error .invalidCapacity) ∧
      (lo ≤ hi → ov < lo → mkSplitter lo hi ov tr = .ok ⟨lo, hi, ov, tr⟩) ∧
      (lo ≤ hi → lo ≤ ov → mkSplitter lo hi ov tr = .error .invalidOverlap) := by
  refine ⟨?_, ?_, ?_⟩
  · intro h
    unfold mkSplitter
    rw [if_pos h]
  · intro h1 h2
    unfold mkSplitter
    rw [if_neg (by omega), if_neg (by omega)]
  · intro h1 h2
    unfold mkSplitter
    rw [if_neg (by omega), if_pos h2]

theorem claim_C8_capacity_witness :
    mkSplitter 2 1 0 true = .error .invalidCapacity ∧
      mkSplitter 1 2 0 true = .ok ⟨1, 2, 0, true⟩ ∧
      mkSplitter 2 3 4 true = .error .invalidOverlap :=
  ⟨(claim_C8_capacity 2 1 0 true).1 (by decide),
    (claim_C8_capacity 1 2 0 true).2.1 (by decide) (by decide),
    (claim_C8_capacity 2 3 4 true).2.2 (by decide) (by decide)⟩

/-- C9: construction through the model-named tokenizer path with a model name
that is not known fails with unknownModel for every splitter flavor, and no
splitter is produced. -/
theorem claim_C9_unknown_model (flavor : Flavor) (known : List String) (model : String)
    (lo hi ov : Nat) (tr : Bool) (h : model ∉ known) :
    fromTiktokenModel flavor known model lo hi ov tr = .error .unknownModel := by
  unfold fromTiktokenModel
  rw [if_neg h]

theorem claim_C9_unknown_model_witness :
    ("random-model-name" ∉ ["gpt-3.5-turbo", "gpt-4"]) ∧
      fromTiktokenModel .text ["gpt-3.5-turbo", "gpt-4"] "random-model-name" 1 1 0 true =
        .error .unknownModel ∧
      fromTiktokenModel .markdown ["gpt-3.5-turbo", "gpt-4"] "random-model-name" 1 1 0 true =
        .error .unknownModel :=
  ⟨by decide,
    claim_C9_unknown_model .text ["gpt-3.5-turbo", "gpt-4"] "random-model-name" 1 1 0 true
      (by decide),
    claim_C9_unknown_model .markdown ["gpt-3.5-turbo", "gpt-4"] "random-model-name" 1 1 0 true
      (by decide)⟩

/-- C10: for every configuration and input, chunks(t) is exactly the sequence
of texts of chunk_indices(t): same count, same contents, same order. -/
theorem claim_C10_agreement (sz : Sizer) (cfg : Config) (t : List Char) :
    chunks sz cfg t = (chunkIndices sz cfg t).map Prod.snd := by
  show (chunkSpans sz cfg t).filterMap (emitChunk t cfg.trim) =
    ((chunkSpans sz cfg t).filterMap (emitIndex t cfg.trim)).map Prod.snd
  rw [List.map_filterMap]
  congr 1
  funext x
  cases htr : cfg.trim
  · rfl
  · show (if (stripB (sliceAt t x.1 x.2.1)).isEmpty then none
        else some (stripB (sliceAt t x.1 x.2.1))) =
      (if (stripB (sliceAt t x.1 x.2.1)).isEmpty then none
        else some (x.1 + wsLead (sliceAt t x.1 x.2.1), stripB (sliceAt t x.1 x.2.1))).map
        Prod.snd
    split_ifs <;> rfl

/-! ### Sanity checks against the integration tests -/

example : chunks charSizer ⟨4, 4, 0, false⟩ "123\n123".toList =
    ["123\n".toList, "123".toList] := by decide

example : chunks charSizer ⟨3, 4, 0, false⟩ "123\n123".toList =
    ["123".toList, "\n123".toList] := by decide

example : chunks charSizer ⟨4, 4, 0, true⟩ "123\n123".toList =
    ["123".toList, "123".toList] := by decide

example : chunkIndices charSizer ⟨4, 4, 2, true⟩ "1234567890".toList =
    [(0, "1234".toList), (2, "3456".toList), (4, "5678".toList), (6, "7890".toList)] := by
  decide

example : chunkIndices charSizer ⟨4, 4, 0, true⟩ "123\n123".toList =
    [(0, "123".toList), (4, "123".toList)] := by decide

end TextSplitter
